import Mathlib

/-!
Verification of the arbitrary-precision floating-point number type
(`ExactFloat`, from `src/s2/util/math/exactfloat/exactfloat.cc`) and the
sign-predicate cascade it supports.

The embedding follows the source file closely: an `ExactFloat` is a sign,
a base-2 exponent of the least-significant mantissa bit (`bn_exp_`), and an
arbitrary-precision unsigned mantissa (`bn_`, a `Nat`, standing for the
OpenSSL BIGNUM).  Special values (zero, infinity, NaN) are encoded by
sentinel exponents exactly as in the C++ code.  The class constants come
from the header `exactfloat.h`, which is not part of the sample; they are
modelled from the spec (a fixed maximum precision, a bounded exponent
range, three sentinel exponents) with the concrete values constrained by
the `static_assert` in `exactfloat.cc`.
-/

namespace S2

/-! ### Bit-level helpers on `Nat` (standing for the BIGNUM helpers) -/

/-- Fuel-driven bit length: `bitlenF f n` is the number of binary digits of
`n`, provided `n ≤ f`.  Mirrors `BN_num_bits`. -/
def bitlenF : Nat → Nat → Nat
  | 0, _ => 0
  | f + 1, n => if n = 0 then 0 else bitlenF f (n / 2) + 1

/-- Number of bits of `n` (`BN_num_bits`): `0` for `0`, otherwise
`⌊log₂ n⌋ + 1`. -/
def bitlen (n : Nat) : Nat := bitlenF n n

/-- Fuel-driven count of low-order zero bits, provided `n ≤ f`. -/
def ctzF : Nat → Nat → Nat
  | 0, _ => 0
  | f + 1, n => if n % 2 = 1 ∨ n = 0 then 0 else ctzF f (n / 2) + 1

/-- Count of low-order zero bits of `n` (`BN_ext_count_low_zero_bits`):
`0` for `0` and for odd `n`. -/
def ctz (n : Nat) : Nat := ctzF n n

/-! ### The `ExactFloat` data model -/

/-- One `ExactFloat` value: sign (±1), exponent of the low mantissa bit,
and the (unsigned) mantissa.  The three sentinel exponents below encode
NaN, ±infinity and ±0. -/
structure ExactFloat where
  sign_ : Int
  bn_exp_ : Int
  bn_ : Nat
deriving DecidableEq, Repr

/-- Modelled from the spec: the header `exactfloat.h` is not in the sample.
The exponent bound; `exactfloat.cc` requires `kMaxExp ≤ INT_MAX / 2`. -/
def kMaxExp : Int := 200000000

/-- Modelled from the spec: minimum (most negative) exponent. -/
def kMinExp : Int := -200000000

/-- Modelled from the spec: the fixed maximum mantissa precision in bits;
`exactfloat.cc` requires `kMinExp - kMaxPrec ≥ INT_MIN / 2`. -/
def kMaxPrec : Int := 64 * 1048576

/-- Modelled from the spec: sentinel exponent for NaN (`INT_MAX`). -/
def kExpNaN : Int := 2147483647

/-- Modelled from the spec: sentinel exponent for ±infinity. -/
def kExpInfinity : Int := 2147483646

/-- Modelled from the spec: sentinel exponent for ±0. -/
def kExpZero : Int := 2147483645

/-- Mantissa bits of an IEEE double, including the implicit leading bit
(the constant `kDoubleMantissaBits = 53` used by `exactfloat.cc`). -/
def kDoubleMantissaBits : Int := 53

namespace ExactFloat

/-- `is_nan()`: the exponent is the NaN sentinel. -/
def is_nan (x : ExactFloat) : Prop := x.bn_exp_ = kExpNaN

/-- `is_inf()`: the exponent is the infinity sentinel. -/
def is_inf (x : ExactFloat) : Prop := x.bn_exp_ = kExpInfinity

/-- `is_zero()`: the exponent is the zero sentinel. -/
def is_zero (x : ExactFloat) : Prop := x.bn_exp_ = kExpZero

/-- `is_normal()`: none of the three sentinel exponents (they are the three
largest `int` values, so a single comparison suffices, as in the header). -/
def is_normal (x : ExactFloat) : Prop := x.bn_exp_ < kExpZero

instance (x : ExactFloat) : Decidable x.is_nan := by unfold is_nan; infer_instance
instance (x : ExactFloat) : Decidable x.is_inf := by unfold is_inf; infer_instance
instance (x : ExactFloat) : Decidable x.is_zero := by unfold is_zero; infer_instance
instance (x : ExactFloat) : Decidable x.is_normal := by unfold is_normal; infer_instance

/-- `prec()`: the number of significant mantissa bits (`BN_num_bits`). -/
def prec (x : ExactFloat) : Int := (bitlen x.bn_ : Int)

/-- `exp()`: the base-2 exponent of the value viewed with a mantissa in
`[0.5, 1)`, i.e. `bn_exp_ + BN_num_bits(bn_)`. -/
def exp' (x : ExactFloat) : Int := x.bn_exp_ + (bitlen x.bn_ : Int)

/-- `set_zero(sign)` / `SignedZero(sign)`. -/
def mkZero (sign : Int) : ExactFloat := ⟨sign, kExpZero, 0⟩

/-- `set_inf(sign)` / `Infinity(sign)`. -/
def mkInf (sign : Int) : ExactFloat := ⟨sign, kExpInfinity, 0⟩

/-- `set_nan()` / `NaN()`: note that the sign is forced to `+1`. -/
def mkNaN : ExactFloat := ⟨1, kExpNaN, 0⟩

/-- `CopyWithSign(sign)`: same value with the given sign. -/
def CopyWithSign (x : ExactFloat) (sign : Int) : ExactFloat :=
  ⟨sign, x.bn_exp_, x.bn_⟩

/-- `Canonicalize()`: convert a zero mantissa to signed zero, saturate
exponent overflow/underflow to signed infinity/zero, strip low-order zero
bits from the mantissa, and collapse to NaN when the precision exceeds
`kMaxPrec`. -/
def canonicalize (x : ExactFloat) : ExactFloat :=
  if ¬ x.is_normal then x
  else
    let y :=
      if x.exp' < kMinExp ∨ x.bn_ = 0 then mkZero x.sign_
      else if x.exp' > kMaxExp then mkInf x.sign_
      else if x.bn_ % 2 = 0 then
        ⟨x.sign_, x.bn_exp_ + (ctz x.bn_ : Int), x.bn_ >>> ctz x.bn_⟩
      else x
    if y.prec > kMaxPrec then mkNaN else y

/-- The rounding modes of `ExactFloat::RoundingMode`. -/
inductive RoundingMode where
  | towardZero
  | towardPositive
  | towardNegative
  | awayFromZero
  | tiesAwayFromZero
  | tiesToEven
deriving DecidableEq, Repr

/-- The sign-free rounding modes of `RoundToPowerOf2` after rounding
up/down has been converted to toward/away from zero. -/
def modeTowardAway (x : ExactFloat) : RoundingMode → RoundingMode
  | .towardPositive => if x.sign_ > 0 then .awayFromZero else .towardZero
  | .towardNegative => if x.sign_ > 0 then .towardZero else .awayFromZero
  | m => m

/-- The increment decision of `RoundToPowerOf2` (for the sign-free modes):
whether the truncated mantissa is incremented, from the rounding mode, the
first discarded bit, the remaining discarded bits, and the lowest kept
bit. -/
def incrementB (x : ExactFloat) (shift : Nat) : RoundingMode → Bool
  | .towardZero => false
  | .tiesAwayFromZero => (x.bn_ >>> (shift - 1)) % 2 = 1
  | .awayFromZero => decide (ctz x.bn_ < shift)
  | _ => -- kRoundTiesToEven
    (x.bn_ >>> (shift - 1)) % 2 = 1 ∧
      ((x.bn_ >>> shift) % 2 = 1 ∨ ctz x.bn_ < shift - 1)

/-- `RoundToPowerOf2(bit_exp, mode)`: round so that all mantissa bits below
`2^bit_exp` are zero. -/
def roundToPowerOf2 (x : ExactFloat) (bit_exp : Int) (mode : RoundingMode) :
    ExactFloat :=
  if bit_exp - x.bn_exp_ ≤ 0 then x
  else
    let shift := (bit_exp - x.bn_exp_).toNat
    canonicalize
      ⟨x.sign_, x.bn_exp_ + (shift : Int),
        (x.bn_ >>> shift) +
          (if incrementB x shift (modeTowardAway x mode) then 1 else 0)⟩

/-- `RoundToMaxPrec(max_prec, mode)`: round down to at most `max_prec`
significant bits (no-op for zero/infinity/NaN, whose `prec()` is 0). -/
def roundToMaxPrec (x : ExactFloat) (maxp : Int) (mode : RoundingMode) :
    ExactFloat :=
  if x.prec - maxp ≤ 0 then x
  else roundToPowerOf2 x (x.bn_exp_ + (x.prec - maxp)) mode

/-- `SignedSum(a_sign, a, b_sign, b)`: magnitude addition/subtraction with
IEEE special-value handling, shared by `operator+` and `operator-`. -/
def signedSum (a_sign : Int) (a : ExactFloat) (b_sign : Int) (b : ExactFloat) :
    ExactFloat :=
  if ¬ a.is_normal ∨ ¬ b.is_normal then
    if a.is_nan then a
    else if b.is_nan then b
    else if a.is_inf then
      if b.is_inf ∧ a_sign ≠ b_sign then mkNaN else mkInf a_sign
    else if b.is_inf then mkInf b_sign
    else if a.is_zero then
      if ¬ b.is_zero then b.CopyWithSign b_sign
      else if a_sign = b_sign then mkZero a_sign
      else mkZero 1
    else a.CopyWithSign a_sign
  else
    -- swap if necessary so that "a" has the larger bn_exp_
    let p := if a.bn_exp_ < b.bn_exp_ then (b_sign, b, a_sign, a)
             else (a_sign, a, b_sign, b)
    let sa := p.1; let a' := p.2.1; let sb := p.2.2.1; let b' := p.2.2.2
    -- shift "a" so both values have the same bn_exp_
    let abn := a'.bn_ <<< (a'.bn_exp_ - b'.bn_exp_).toNat
    if sa = sb then canonicalize ⟨sa, b'.bn_exp_, abn + b'.bn_⟩
    else
      let d : Int := (abn : Int) - (b'.bn_ : Int)
      if d = 0 then canonicalize ⟨1, b'.bn_exp_, 0⟩
      else if d < 0 then canonicalize ⟨sb, b'.bn_exp_, (-d).toNat⟩
      else canonicalize ⟨sa, b'.bn_exp_, d.toNat⟩

/-- `operator+`. -/
def add (a b : ExactFloat) : ExactFloat := signedSum a.sign_ a b.sign_ b

/-- `operator-` (binary). -/
def sub (a b : ExactFloat) : ExactFloat := signedSum a.sign_ a (-b.sign_) b

/-- `operator*`. -/
def mul (a b : ExactFloat) : ExactFloat :=
  let result_sign := a.sign_ * b.sign_
  if ¬ a.is_normal ∨ ¬ b.is_normal then
    if a.is_nan then a
    else if b.is_nan then b
    else if a.is_inf then
      if b.is_zero then mkNaN else mkInf result_sign
    else if b.is_inf then
      if a.is_zero then mkNaN else mkInf result_sign
    else mkZero result_sign
  else canonicalize ⟨result_sign, a.bn_exp_ + b.bn_exp_, a.bn_ * b.bn_⟩

/-- `operator==`. -/
def efEq (a b : ExactFloat) : Bool :=
  if a.is_nan ∨ b.is_nan then false
  else if a.bn_exp_ ≠ b.bn_exp_ then false
  else if a.is_zero ∧ b.is_zero then true
  else decide (a.sign_ = b.sign_) && decide (a.bn_ = b.bn_)

/-- `ScaleAndCompare(b)` (requires `bn_exp_ ≥ b.bn_exp_`): left-shift our
mantissa to `b`'s exponent and compare mantissas (`BN_ucmp`). -/
def scaleAndCompare (a b : ExactFloat) : Int :=
  let t := a.bn_ <<< (a.bn_exp_ - b.bn_exp_).toNat
  if t < b.bn_ then -1 else if t = b.bn_ then 0 else 1

/-- `UnsignedLess(b)`: absolute-value comparison for non-NaN values. -/
def unsignedLess (a b : ExactFloat) : Bool :=
  if a.is_inf ∨ b.is_zero then false
  else if a.is_zero ∨ b.is_inf then true
  else if a.exp' - b.exp' ≠ 0 then decide (a.exp' - b.exp' < 0)
  else if a.bn_exp_ ≥ b.bn_exp_ then decide (scaleAndCompare a b < 0)
  else decide (scaleAndCompare b a > 0)

/-- `operator<`. -/
def efLt (a b : ExactFloat) : Bool :=
  if a.is_nan ∨ b.is_nan then false
  else if a.is_zero ∧ b.is_zero then false
  else if a.sign_ ≠ b.sign_ then decide (a.sign_ < b.sign_)
  else if a.sign_ > 0 then unsignedLess a b
  else unsignedLess b a

/-- `ldexp(a, exp)`: scale by a power of two, clamping the requested
exponent first (as the source does, to avoid `int` overflow) and then
canonicalizing, which saturates overflow/underflow. -/
def ldexpEF (a : ExactFloat) (e : Int) : ExactFloat :=
  if ¬ a.is_normal then a
  else
    let e' := min (kMaxExp + 1 - a.exp') (max (kMinExp - 1 + a.exp') e)
    canonicalize ⟨a.sign_, a.bn_exp_ + e', a.bn_⟩

/-- `ExactFloat(int v)`. -/
def ofInt (v : Int) : ExactFloat :=
  canonicalize ⟨if v ≥ 0 then 1 else -1, 0, v.natAbs⟩

/-- The rational value represented by a normal `ExactFloat`
(`sign * mantissa * 2^bn_exp_`); zero/infinity/NaN are mapped to `0`. -/
def val (x : ExactFloat) : ℚ :=
  if x.is_normal then (x.sign_ : ℚ) * (x.bn_ : ℚ) * (2 : ℚ) ^ x.bn_exp_ else 0

/-- Well-formedness invariant maintained by all constructors and
operations: the sign is ±1, normal values have an odd mantissa of at most
`kMaxPrec` bits and an exponent in range, and non-normal values have a
zero mantissa. -/
def wf (x : ExactFloat) : Prop :=
  (x.sign_ = 1 ∨ x.sign_ = -1) ∧
    (x.is_normal → x.bn_ % 2 = 1 ∧ x.prec ≤ kMaxPrec ∧
      kMinExp ≤ x.exp' ∧ x.exp' ≤ kMaxExp) ∧
    (¬ x.is_normal → x.bn_ = 0)

instance (x : ExactFloat) : Decidable x.wf := by unfold wf; infer_instance

end ExactFloat

end S2

namespace S2

/-! ### The IEEE double model used by the conversion routines

The conversions `ExactFloat(double)` and `ExactFloat::ToDouble()` rely on
the platform's `frexp`/`ldexp`/`copysign`.  Doubles are modelled here at
the level of their canonical IEEE-754 binary64 decomposition: a finite
double is `(-1)^neg * m * 2^e` with either a normal mantissa
(`2^52 ≤ m < 2^53`, `-1074 ≤ e ≤ 971`) or a denormal/zero mantissa
(`m < 2^52`, `e = -1074`); infinities and NaNs carry their sign bit.
Distinct constructor arguments correspond to distinct bit patterns, so
bit-for-bit equality of doubles is structural equality here (NaN payloads
other than the sign bit are not modelled; the default quiet NaN stands
for all of them). -/

/-- An IEEE-754 binary64 value in canonical decomposed form. -/
inductive FpDouble where
  | finite (neg : Bool) (m : Nat) (e : Int)
  | inf (neg : Bool)
  | nan (neg : Bool)
deriving DecidableEq, Repr

/-- The canonical-form constraint making `FpDouble.finite` a bijective
image of the finite double bit patterns. -/
def validDouble : FpDouble → Prop
  | .finite _ m e => (e = -1074 ∧ m < 2 ^ 52) ∨
      (-1074 ≤ e ∧ e ≤ 971 ∧ 2 ^ 52 ≤ m ∧ m < 2 ^ 53)
  | _ => True

instance (d : FpDouble) : Decidable (validDouble d) := by
  cases d <;> (unfold validDouble; infer_instance)

/-- Modelled from the spec: the C library `ldexp(double(m), e)` used by
`ToDoubleHelper`, i.e. the correctly rounded (round-to-nearest,
ties-to-even) double closest to `m * 2^e`, with overflow to infinity and
gradual underflow to denormals/zero, as IEEE 754 requires. -/
def ldexpDouble (neg : Bool) (m : Nat) (e : Int) : FpDouble :=
  if m = 0 then .finite neg 0 (-1074)
  else
    -- exponent of the unit-in-the-last-place of the rounded result
    let q : Int := max (e + (bitlen m : Int) - 53) (-1074)
    if e ≥ q then
      -- exact case: all bits representable
      if q > 971 then .inf neg else .finite neg (m <<< (e - q).toNat) q
    else
      -- rounding case: shift out (q - e) bits with round-to-nearest-even
      let s := (q - e).toNat
      let kept := m >>> s
      let guard := (m >>> (s - 1)) % 2 = 1
      let sticky := m % 2 ^ (s - 1) ≠ 0
      let M := if guard ∧ (sticky ∨ kept % 2 = 1) then kept + 1 else kept
      if M = 2 ^ 53 then
        if q + 1 > 971 then .inf neg else .finite neg (2 ^ 52) (q + 1)
      else .finite neg M q

namespace ExactFloat

/-- `ExactFloat(double v)`: decompose `v` exactly via `frexp`/`ldexp`
(`f ∈ [0.5, 1)` scaled by `2^53` is the integer mantissa) and
canonicalize.  NaN inputs go through `set_nan()`, which forces the sign
to `+1`. -/
def ofDouble : FpDouble → ExactFloat
  | .nan _ => mkNaN
  | .inf neg => mkInf (if neg then -1 else 1)
  | .finite neg m e =>
      canonicalize
        ⟨if neg then -1 else 1, e + (bitlen m : Int) - 53,
          m <<< (53 - bitlen m)⟩

/-- `ToDoubleHelper()`: requires `prec() ≤ 53`; special states convert by
`copysign`, others by `ldexp` on the 64-bit mantissa. -/
def toDoubleHelper (x : ExactFloat) : FpDouble :=
  if ¬ x.is_normal then
    if x.is_zero then .finite (decide (x.sign_ < 0)) 0 (-1074)
    else if x.is_inf then .inf (decide (x.sign_ < 0))
    else .nan false
  else ldexpDouble (decide (x.sign_ < 0)) x.bn_ x.bn_exp_

/-- `ToDouble()`: round to 53 bits (ties to even) if needed, then convert. -/
def toDouble (x : ExactFloat) : FpDouble :=
  if x.prec ≤ kDoubleMantissaBits then x.toDoubleHelper
  else (x.roundToMaxPrec kDoubleMantissaBits .tiesToEven).toDoubleHelper

end ExactFloat

/-! ### Decimal formatting (`GetDecimalDigits`) -/

/-- Fuel-driven accumulation of base-10 digits, most significant first. -/
def natDigitsF : Nat → Nat → List Nat → List Nat
  | 0, _, acc => acc
  | f + 1, n, acc => if n = 0 then acc else natDigitsF f (n / 10) (n % 10 :: acc)

/-- Decimal digits of `n`, most significant first (`BN_bn2dec`). -/
def natDigits (n : Nat) : List Nat := if n = 0 then [0] else natDigitsF n n []

/-- `IncrementDecimalDigits`, working from the least significant digit of
the reversed list. -/
def incDigitsRev : List Nat → List Nat
  | [] => [1]
  | d :: rest => if d < 9 then (d + 1) :: rest else 0 :: incDigitsRev rest

/-- `IncrementDecimalDigits` on a most-significant-first digit string. -/
def incDigits (ds : List Nat) : List Nat := (incDigitsRev ds.reverse).reverse

/-- The digit string with trailing zero digits removed. -/
def stripTrailing (ds : List Nat) : List Nat :=
  ((ds.reverse).dropWhile (fun d => d = 0)).reverse

namespace ExactFloat

/-- The increment test performed by `GetDecimalDigits` when digits must be
discarded: round up if the highest discarded digit is ≥ 5 and either the
lowest kept digit is odd or some lower discarded digit is nonzero. -/
def codeIncrementTest (allDigits : List Nat) (maxDigits : Nat) : Bool :=
  5 ≤ allDigits.getD maxDigits 0 &&
    (allDigits.getD (maxDigits - 1) 0 % 2 = 1 ||
      (allDigits.drop (maxDigits + 1)).any (fun d => d ≠ 0))

/-- `GetDecimalDigits(max_digits, &digits)` on a normal value: returns the
digit string (most significant first, no trailing zeros) and the returned
base-10 exponent, so that the value is `0.digits * 10^exp10`. -/
def getDecimalDigits (x : ExactFloat) (maxDigits : Nat) : List Nat × Int :=
  -- write the value as bigval * 10^exp10a
  let bigval : Nat := if x.bn_exp_ ≥ 0 then x.bn_ <<< x.bn_exp_.toNat
                      else 5 ^ (-x.bn_exp_).toNat * x.bn_
  let exp10a : Int := if x.bn_exp_ ≥ 0 then 0 else x.bn_exp_
  let allDigits := natDigits bigval
  let numDigits := allDigits.length
  let p :=
    if numDigits ≤ maxDigits then (allDigits, exp10a)
    else
      let kept := allDigits.take maxDigits
      (if codeIncrementTest allDigits maxDigits then incDigits kept else kept,
        exp10a + ((numDigits - maxDigits : Nat) : Int))
  let stripped := stripTrailing p.1
  (stripped, p.2 + ((p.1.length - stripped.length : Nat) : Int) +
    (stripped.length : Int))

/-- The increment decision stated by the spec (round-half-to-even on the
discarded decimal digits): increment exactly when the discarded fraction
exceeds one half, or equals one half and the lowest kept digit is odd.
Stated on the full digit string for comparison with `codeIncrementTest`. -/
def specIncrementTest (allDigits : List Nat) (maxDigits : Nat) : Bool :=
  let first := allDigits.getD maxDigits 0
  let restNonzero := (allDigits.drop (maxDigits + 1)).any (fun d => d ≠ 0)
  -- discarded fraction > 1/2
  (5 < first || (first = 5 && restNonzero)) ||
  -- discarded fraction = 1/2 and lowest kept digit odd
    (first = 5 && !restNonzero && allDigits.getD (maxDigits - 1) 0 % 2 = 1)

end ExactFloat

/-! ### The sign-predicate cascade (spec-modelled)

Modelled from the spec: the predicate implementations
(`ExactSign`, `SymbolicallyPerturbedSign` of `s2predicates.cc`) are not in
the sample; only their declarations appear in `s2predicates_internal.h`.
Per the spec (§4.2), the cascade evaluates the orientation determinant:
the triage stage returns only when its magnitude exceeds a conservative
error bound (so it never contradicts the exact stage), the exact stage
returns the determinant's sign when nonzero, and the symbolic stage
resolves exact degeneracies by an infinitesimal, deterministic,
order-dependent perturbation keyed on a fixed total order over point
identities.  The spec leaves the concrete perturbation scheme open
(§9, open question); the classic simulation-of-simplicity scheme is used
here: the point of rank `k` in the total order is perturbed by
`(ε^(2^(3k)), ε^(2^(3k+1)), ε^(2^(3k+2)))`, and the observed sign is the
sign of the first nonvanishing coefficient of the perturbed determinant,
ordered by ascending powers of the infinitesimal `ε`. -/

/-- A point with exact (arbitrary-precision) coordinates, as used by the
exact and symbolic stages of the cascade. -/
structure Pt where
  px : ℚ
  py : ℚ
  pz : ℚ
deriving DecidableEq, Repr

/-- The 3×3 determinant `det(a; b; c)` (the scalar triple product
`a · (b × c)` computed by the exact stage). -/
def det3 (a b c : Pt) : ℚ :=
  a.px * (b.py * c.pz - b.pz * c.py) - a.py * (b.px * c.pz - b.pz * c.px) +
    a.pz * (b.px * c.py - b.py * c.px)

/-- The fixed total order over point identities used by the symbolic
stage: lexicographic comparison of the coordinate triples. -/
def ptKey (p : Pt) : ℚ ×ₗ (ℚ ×ₗ ℚ) := toLex (p.px, toLex (p.py, p.pz))

/-- The order relation induced by the point key. -/
def ptLe (p q : Pt) : Prop := ptKey p ≤ ptKey q

instance : DecidableRel ptLe := fun p q => by unfold ptLe; infer_instance

/-- The three input points in ascending order of the fixed total order. -/
def sortPts (a b c : Pt) : List Pt :=
  List.insertionSort ptLe [a, b, c]

/-- The sign `(-1)^inversions` of the permutation taking the argument
order to the sorted order. -/
def parity3 (a b c : Pt) : Int :=
  (if ptKey a ≤ ptKey b then 1 else -1) * (if ptKey a ≤ ptKey c then 1 else -1) *
    (if ptKey b ≤ ptKey c then 1 else -1)

/-- The standard basis vector with a 1 in coordinate `j`. -/
def unitPt (j : Nat) : Pt :=
  if j = 0 then ⟨1, 0, 0⟩ else if j = 1 then ⟨0, 1, 0⟩ else ⟨0, 0, 1⟩

/-- Replace a row by the perturbation direction selected by its 3-bit
field of the mask: `0` keeps the row, `1/2/4` select a unit vector. -/
def rowOf (orig : Pt) (bits : Nat) : Pt :=
  if bits = 0 then orig
  else if bits = 1 then unitPt 0
  else if bits = 2 then unitPt 1
  else unitPt 2

/-- A mask is a monomial of the ε-expansion if each row's 3-bit field has
at most one bit set and at least one row is perturbed. -/
def maskValid (mask : Nat) : Bool :=
  mask ≠ 0 &&
    (mask % 8 = 0 || mask % 8 = 1 || mask % 8 = 2 || mask % 8 = 4) &&
    (mask / 8 % 8 = 0 || mask / 8 % 8 = 1 || mask / 8 % 8 = 2 || mask / 8 % 8 = 4) &&
    (mask / 64 = 0 || mask / 64 = 1 || mask / 64 = 2 || mask / 64 = 4)

/-- The ε-expansion coefficient of the monomial selected by `mask` (by
multilinearity of the determinant in its rows). -/
def maskCoeff (p q r : Pt) (mask : Nat) : ℚ :=
  det3 (rowOf p (mask % 8)) (rowOf q (mask / 8 % 8)) (rowOf r (mask / 64))

/-- Sign of the first valid nonvanishing coefficient in the given mask
order. -/
def firstCoeffSign (p q r : Pt) : List Nat → Int
  | [] => 0
  | m :: ms =>
      if maskValid m ∧ maskCoeff p q r m ≠ 0 then
        if maskCoeff p q r m > 0 then 1 else -1
      else firstCoeffSign p q r ms

/-- The symbolic sign of the sorted, pairwise distinct, exactly collinear
triple `(p, q, r)`: the masks (monomials) are enumerated in ascending
ε-exponent order, which for exponents `2^position` is the numeric order
of the masks. -/
def symbolicBase (p q r : Pt) : Int :=
  firstCoeffSign p q r ((List.range 512).drop 1)

/-- Modelled from the spec: `SymbolicallyPerturbedSign` — the symbolic
tie-break producing a sign for exactly degenerate (collinear) triples.
Triples with repeated points are fixed by every argument transposition,
so no antisymmetric tie-break can (or need) distinguish them: the sign
is 0 there. -/
def symbolicallyPerturbedSign (a b c : Pt) : Int :=
  if a = b ∨ a = c ∨ b = c then 0
  else
    match sortPts a b c with
    | [p, q, r] => parity3 a b c * symbolicBase p q r
    | _ => 0

/-- Modelled from the spec: the overall orientation predicate
`sign(a, b, c)` of the three-stage cascade.  The triage stage answers
only when the determinant's magnitude exceeds its error bound (and then
agrees with the exact stage), so the observable function is: the sign of
the exact determinant when nonzero, else the symbolic perturbation. -/
def signCascade (a b c : Pt) : Int :=
  let d := det3 a b c
  if d > 0 then 1 else if d < 0 then -1 else symbolicallyPerturbedSign a b c

end S2

namespace S2

/-- A mantissa of 33554433 bits (half of `kMaxPrec` plus one bit), used to
exhibit precision overflow of multiplication.  Kept behind a definition so
that its numeric value is never forced during elaboration. -/
def c2big : Nat := (1 <<< 33554432) + 1

end S2

namespace S2

namespace ExactFloat

/-- The mantissa part of the canonical-form invariant: the mantissa is
zero or odd (all trailing zero bits shifted into the exponent). -/
def mcanon (x : ExactFloat) : Prop := x.bn_ = 0 ∨ x.bn_ % 2 = 1

instance (x : ExactFloat) : Decidable x.mcanon := by unfold mcanon; infer_instance

end ExactFloat

end S2

namespace S2

/-! ### Lemmas about `bitlen` and `ctz` -/

theorem bitlenF_zero_arg : ∀ g, bitlenF g 0 = 0
  | 0 => rfl
  | _ + 1 => by simp [bitlenF]

theorem bitlenF_fuel : ∀ {f g n : Nat}, n ≤ f → n ≤ g → bitlenF f n = bitlenF g n := by
  intro f
  induction f with
  | zero =>
    intro g n hf _
    interval_cases n
    rw [bitlenF_zero_arg, bitlenF_zero_arg]
  | succ f ih =>
    intro g n hf hg
    rcases Nat.eq_zero_or_pos n with h0 | h0
    · subst h0; rw [bitlenF_zero_arg, bitlenF_zero_arg]
    · obtain ⟨g', rfl⟩ : ∃ g', g = g' + 1 :=
        ⟨g - 1, (Nat.succ_pred_eq_of_pos (Nat.lt_of_lt_of_le h0 hg)).symm⟩
      have hn : n ≠ 0 := Nat.pos_iff_ne_zero.mp h0
      have hhalf : n / 2 < n := Nat.div_lt_self h0 one_lt_two
      simp only [bitlenF, if_neg hn]
      rw [ih (Nat.le_of_lt_succ (Nat.lt_of_lt_of_le hhalf hf))
          (Nat.le_of_lt_succ (Nat.lt_of_lt_of_le hhalf hg))]

theorem bitlen_zero : bitlen 0 = 0 := rfl

theorem bitlen_succ {n : Nat} (h : n ≠ 0) : bitlen n = bitlen (n / 2) + 1 := by
  have h0 : 0 < n := Nat.pos_iff_ne_zero.mpr h
  obtain ⟨m, rfl⟩ : ∃ m, n = m + 1 := ⟨n - 1, (Nat.succ_pred_eq_of_pos h0).symm⟩
  show bitlenF (m + 1) (m + 1) = bitlen ((m + 1) / 2) + 1
  simp only [bitlenF, if_neg h]
  rw [bitlenF_fuel (Nat.le_of_lt_succ (Nat.div_lt_self h0 one_lt_two)) (le_refl _)]
  rfl

theorem bitlen_sandwich {n : Nat} (h : n ≠ 0) :
    2 ^ (bitlen n - 1) ≤ n ∧ n < 2 ^ bitlen n := by
  induction n using Nat.strong_induction_on with
  | _ n ih =>
    rcases Nat.lt_or_ge n 2 with h2 | h2
    · interval_cases n
      · exact absurd rfl h
      · exact ⟨le_refl _, one_lt_two⟩
    · have hhalf : n / 2 < n := Nat.div_lt_self (by omega) one_lt_two
      have hhalf0 : n / 2 ≠ 0 := by omega
      obtain ⟨ih1, ih2⟩ := ih (n / 2) hhalf hhalf0
      rw [bitlen_succ h]
      set b := bitlen (n / 2) with hb
      have hb0 : b ≠ 0 := by
        intro h0
        rw [h0] at ih2
        omega
      constructor
      · have : 2 ^ (b - 1) * 2 ≤ n / 2 * 2 := Nat.mul_le_mul_right 2 ih1
        calc 2 ^ (b + 1 - 1) = 2 ^ (b - 1) * 2 := by
              rw [← pow_succ]; congr 1; omega
          _ ≤ n / 2 * 2 := this
          _ ≤ n := Nat.div_mul_le_self n 2
      · have : n / 2 * 2 + 2 ≤ 2 ^ b * 2 := by
          have := Nat.succ_le_of_lt ih2
          omega
        have hn : n < n / 2 * 2 + 2 := by omega
        calc n < n / 2 * 2 + 2 := hn
          _ ≤ 2 ^ b * 2 := this
          _ = 2 ^ (b + 1) := (pow_succ 2 b).symm

theorem bitlen_le {n k : Nat} : bitlen n ≤ k ↔ n < 2 ^ k := by
  rcases Nat.eq_zero_or_pos n with h0 | h0
  · subst h0
    simp [bitlen_zero, Nat.two_pow_pos]
  · have h := bitlen_sandwich (Nat.pos_iff_ne_zero.mp h0)
    constructor
    · intro hle
      exact Nat.lt_of_lt_of_le h.2 (Nat.pow_le_pow_right (by norm_num) hle)
    · intro hlt
      by_contra hgt
      push_neg at hgt
      have : 2 ^ k ≤ 2 ^ (bitlen n - 1) := Nat.pow_le_pow_right (by norm_num) (by omega)
      omega

theorem lt_bitlen {n k : Nat} : k < bitlen n ↔ 2 ^ k ≤ n := by
  rw [← not_iff_not]
  push_neg
  exact bitlen_le

theorem bitlen_unique {n k : Nat} (h1 : 2 ^ k ≤ n) (h2 : n < 2 ^ (k + 1)) :
    bitlen n = k + 1 :=
  Nat.le_antisymm (bitlen_le.mpr h2) (lt_bitlen.mpr h1)

theorem bitlen_shiftLeft {n : Nat} (k : Nat) (h : n ≠ 0) :
    bitlen (n <<< k) = bitlen n + k := by
  obtain ⟨h1, h2⟩ := bitlen_sandwich h
  have hb : bitlen n ≠ 0 := by
    intro h0; rw [h0] at h2; omega
  rw [Nat.shiftLeft_eq]
  have e1 : 2 ^ (bitlen n + k - 1) ≤ n * 2 ^ k := by
    calc 2 ^ (bitlen n + k - 1) = 2 ^ (bitlen n - 1) * 2 ^ k := by
          rw [← pow_add]; congr 1; omega
      _ ≤ n * 2 ^ k := Nat.mul_le_mul_right _ h1
  have e2 : n * 2 ^ k < 2 ^ (bitlen n + k) := by
    calc n * 2 ^ k < 2 ^ bitlen n * 2 ^ k :=
          (Nat.mul_lt_mul_right (Nat.two_pow_pos k)).mpr h2
      _ = 2 ^ (bitlen n + k) := by rw [← pow_add]
  have e0 : bitlen n + k = bitlen n + k - 1 + 1 := by omega
  rw [e0] at e2
  rw [bitlen_unique e1 e2]
  omega

theorem ctzF_zero_arg : ∀ g, ctzF g 0 = 0
  | 0 => rfl
  | _ + 1 => by simp [ctzF]

theorem ctzF_fuel : ∀ {f g n : Nat}, n ≤ f → n ≤ g → ctzF f n = ctzF g n := by
  intro f
  induction f with
  | zero =>
    intro g n hf _
    interval_cases n
    rw [ctzF_zero_arg, ctzF_zero_arg]
  | succ f ih =>
    intro g n hf hg
    rcases Nat.eq_zero_or_pos n with h0 | h0
    · subst h0; rw [ctzF_zero_arg, ctzF_zero_arg]
    · obtain ⟨g', rfl⟩ : ∃ g', g = g' + 1 :=
        ⟨g - 1, (Nat.succ_pred_eq_of_pos (Nat.lt_of_lt_of_le h0 hg)).symm⟩
      by_cases hodd : n % 2 = 1 ∨ n = 0
      · simp only [ctzF, if_pos hodd]
      · have hhalf : n / 2 < n := Nat.div_lt_self h0 one_lt_two
        simp only [ctzF, if_neg hodd]
        rw [ih (Nat.le_of_lt_succ (Nat.lt_of_lt_of_le hhalf hf))
            (Nat.le_of_lt_succ (Nat.lt_of_lt_of_le hhalf hg))]

theorem ctz_odd {n : Nat} (h : n % 2 = 1) : ctz n = 0 := by
  have h0 : n ≠ 0 := by omega
  obtain ⟨m, rfl⟩ : ∃ m, n = m + 1 := ⟨n - 1, by omega⟩
  show ctzF (m + 1) (m + 1) = 0
  simp [ctzF, h]

theorem ctz_even {n : Nat} (h : n % 2 = 0) (h0 : n ≠ 0) :
    ctz n = ctz (n / 2) + 1 := by
  obtain ⟨m, rfl⟩ : ∃ m, n = m + 1 := ⟨n - 1, by omega⟩
  show ctzF (m + 1) (m + 1) = ctz ((m + 1) / 2) + 1
  simp only [ctzF, if_neg (by omega : ¬((m + 1) % 2 = 1 ∨ m + 1 = 0))]
  rw [ctzF_fuel (Nat.le_of_lt_succ (Nat.div_lt_self (by omega) one_lt_two)) (le_refl _)]
  rfl

/-- The mantissa with its trailing zero bits removed is odd, and restoring
them recovers the original number. -/
theorem ctz_spec {n : Nat} (h : n ≠ 0) :
    (n >>> ctz n) % 2 = 1 ∧ (n >>> ctz n) * 2 ^ ctz n = n := by
  induction n using Nat.strong_induction_on with
  | _ n ih =>
    rcases Nat.even_or_odd n with he | ho
    · have h2 : n % 2 = 0 := Nat.even_iff.mp he
      have hc := ctz_even h2 h
      have hhalf : n / 2 < n := Nat.div_lt_self (by omega) one_lt_two
      have hh0 : n / 2 ≠ 0 := by omega
      obtain ⟨ih1, ih2⟩ := ih (n / 2) hhalf hh0
      rw [hc]
      have hr : n >>> (ctz (n / 2) + 1) = (n / 2) >>> ctz (n / 2) := by
        rw [Nat.shiftRight_eq_div_pow, Nat.shiftRight_eq_div_pow, pow_succ]
        rw [Nat.div_div_eq_div_mul, Nat.mul_comm, ← Nat.div_div_eq_div_mul]
      rw [hr]
      refine ⟨ih1, ?_⟩
      rw [pow_succ, ← Nat.mul_assoc, ih2]
      omega
    · have h2 : n % 2 = 1 := Nat.odd_iff.mp ho
      rw [ctz_odd h2]
      simpa using h2

theorem shiftRight_ctz_pos {n : Nat} (h : n ≠ 0) : 1 ≤ n >>> ctz n := by
  rcases Nat.eq_zero_or_pos (n >>> ctz n) with hz | hp
  · have h2 := (ctz_spec h).2
    rw [hz, Nat.zero_mul] at h2
    exact absurd h2.symm h
  · exact hp

theorem ctz_le_bitlen {n : Nat} (h : n ≠ 0) : ctz n + 1 ≤ bitlen n := by
  obtain ⟨h1, h2⟩ := ctz_spec h
  have hb : 2 ^ ctz n ≤ n := by
    calc 2 ^ ctz n = 1 * 2 ^ ctz n := (Nat.one_mul _).symm
      _ ≤ (n >>> ctz n) * 2 ^ ctz n := Nat.mul_le_mul_right _ (shiftRight_ctz_pos h)
      _ = n := h2
  exact lt_bitlen.mpr hb

theorem bitlen_shiftRight_ctz {n : Nat} (h : n ≠ 0) :
    bitlen (n >>> ctz n) = bitlen n - ctz n := by
  obtain ⟨h1, h2⟩ := ctz_spec h
  have hne : n >>> ctz n ≠ 0 := Nat.pos_iff_ne_zero.mp (shiftRight_ctz_pos h)
  have := bitlen_shiftLeft (ctz n) hne
  rw [Nat.shiftLeft_eq, h2] at this
  omega

/-! ### Basic facts about special values and `canonicalize` -/

namespace ExactFloat

theorem kExp_lt : kMaxExp < kExpZero ∧ kExpZero < kExpInfinity ∧
    kExpInfinity < kExpNaN ∧ kMinExp < kMaxExp := by
  refine ⟨?_, ?_, ?_, ?_⟩ <;> decide

theorem mkZero_is_zero (s : Int) : (mkZero s).is_zero := rfl

theorem mkZero_not_normal (s : Int) : ¬ (mkZero s).is_normal := by
  simp [mkZero, is_normal]

theorem mkInf_not_normal (s : Int) : ¬ (mkInf s).is_normal := by
  simp [mkInf, is_normal, kExpZero, kExpInfinity]

theorem mkNaN_not_normal : ¬ mkNaN.is_normal := by
  simp [mkNaN, is_normal, kExpZero, kExpNaN]

theorem mkNaN_is_nan : mkNaN.is_nan := rfl

theorem mkZero_not_nan (s : Int) : ¬ (mkZero s).is_nan := by
  simp [mkZero, is_nan, kExpZero, kExpNaN]

theorem mkInf_not_nan (s : Int) : ¬ (mkInf s).is_nan := by
  simp [mkInf, is_nan, kExpInfinity, kExpNaN]

theorem is_nan_not_normal {x : ExactFloat} (h : x.is_nan) : ¬ x.is_normal := by
  unfold is_nan at h
  unfold is_normal
  rw [h]
  decide

theorem is_inf_not_normal {x : ExactFloat} (h : x.is_inf) : ¬ x.is_normal := by
  unfold is_inf at h
  unfold is_normal
  rw [h]
  decide

theorem is_zero_not_normal {x : ExactFloat} (h : x.is_zero) : ¬ x.is_normal := by
  unfold is_zero at h
  unfold is_normal
  rw [h]
  decide

theorem not_normal_cases {x : ExactFloat} (h : ¬ x.is_normal) :
    x.is_zero ∨ x.is_inf ∨ x.is_nan ∨
      (kExpZero < x.bn_exp_ ∧ ¬ x.is_zero ∧ ¬ x.is_inf ∧ ¬ x.is_nan) := by
  unfold is_zero is_inf is_nan
  unfold is_normal at h
  omega

/-- `val` of a non-normal value is `0`. -/
theorem val_not_normal {x : ExactFloat} (h : ¬ x.is_normal) : val x = 0 := by
  simp [val, h]

theorem val_normal {x : ExactFloat} (h : x.is_normal) :
    val x = (x.sign_ : ℚ) * (x.bn_ : ℚ) * (2 : ℚ) ^ x.bn_exp_ := by
  simp [val, h]

/-- Shifting the mantissa left while lowering the exponent keeps the value. -/
theorem shift_val (m : Nat) (k : Nat) (e : Int) :
    ((m <<< k : Nat) : ℚ) * (2 : ℚ) ^ e = (m : ℚ) * (2 : ℚ) ^ (e + k) := by
  rw [Nat.shiftLeft_eq, zpow_add₀ (two_ne_zero) e (k : Int), zpow_natCast]
  push_cast
  ring

/-- Canonical form of `canonicalize` on a normal input: saturate to signed
zero/infinity, strip trailing zero bits, or collapse to NaN. -/
theorem canonicalize_eq {x : ExactFloat} (hx : x.is_normal) :
    canonicalize x =
      if x.exp' < kMinExp ∨ x.bn_ = 0 then mkZero x.sign_
      else if x.exp' > kMaxExp then mkInf x.sign_
      else if kMaxPrec < (bitlen x.bn_ : Int) - (ctz x.bn_ : Int) then mkNaN
      else ⟨x.sign_, x.bn_exp_ + (ctz x.bn_ : Int), x.bn_ >>> ctz x.bn_⟩ := by
  unfold canonicalize
  rw [if_neg (not_not_intro hx)]
  by_cases h1 : x.exp' < kMinExp ∨ x.bn_ = 0
  · rw [if_pos h1, if_pos h1]
    have : (mkZero x.sign_).prec = 0 := by simp [mkZero, prec, bitlen_zero]
    rw [if_neg]
    rw [this]
    decide
  · rw [if_neg h1, if_neg h1]
    have hbn : x.bn_ ≠ 0 := by
      intro h0
      exact h1 (Or.inr h0)
    by_cases h2 : x.exp' > kMaxExp
    · rw [if_pos h2, if_pos h2]
      have : (mkInf x.sign_).prec = 0 := by simp [mkInf, prec, bitlen_zero]
      rw [if_neg]
      rw [this]
      decide
    · rw [if_neg h2, if_neg h2]
      have hstrip :
          (if x.bn_ % 2 = 0 then
              (⟨x.sign_, x.bn_exp_ + (ctz x.bn_ : Int), x.bn_ >>> ctz x.bn_⟩ : ExactFloat)
            else x) =
            ⟨x.sign_, x.bn_exp_ + (ctz x.bn_ : Int), x.bn_ >>> ctz x.bn_⟩ := by
        by_cases hpar : x.bn_ % 2 = 0
        · rw [if_pos hpar]
        · rw [if_neg hpar]
          have hodd : x.bn_ % 2 = 1 := by omega
          rw [ctz_odd hodd]
          simp
      rw [hstrip]
      have hprec : (⟨x.sign_, x.bn_exp_ + (ctz x.bn_ : Int),
          x.bn_ >>> ctz x.bn_⟩ : ExactFloat).prec =
          (bitlen x.bn_ : Int) - (ctz x.bn_ : Int) := by
        show ((bitlen (x.bn_ >>> ctz x.bn_) : Nat) : Int) = _
        rw [bitlen_shiftRight_ctz hbn]
        have := ctz_le_bitlen hbn
        omega
      by_cases h3 : kMaxPrec < (bitlen x.bn_ : Int) - (ctz x.bn_ : Int)
      · rw [if_pos h3]
        rw [if_pos]
        rw [hprec]
        exact h3
      · rw [if_neg h3]
        rw [if_neg]
        rw [hprec]
        exact h3

theorem canonicalize_not_normal {x : ExactFloat} (h : ¬ x.is_normal) :
    canonicalize x = x := by
  unfold canonicalize
  rw [if_pos h]

/-- When `canonicalize` returns a normal value, the input was normal, the
sign is unchanged, the mantissa is odd, the leading-bit exponent is
unchanged, and the represented value is unchanged. -/
theorem canonicalize_normal_val {x : ExactFloat} (hc : (canonicalize x).is_normal) :
    x.is_normal ∧ (canonicalize x).sign_ = x.sign_ ∧
      (canonicalize x).bn_ % 2 = 1 ∧ (canonicalize x).exp' = x.exp' ∧
      val (canonicalize x) = val x := by
  by_cases hx : x.is_normal
  · rw [canonicalize_eq hx] at hc ⊢
    by_cases h1 : x.exp' < kMinExp ∨ x.bn_ = 0
    · rw [if_pos h1] at hc
      exact absurd hc (mkZero_not_normal _)
    · rw [if_neg h1] at hc ⊢
      by_cases h2 : x.exp' > kMaxExp
      · rw [if_pos h2] at hc
        exact absurd hc (mkInf_not_normal _)
      · rw [if_neg h2] at hc ⊢
        by_cases h3 : kMaxPrec < (bitlen x.bn_ : Int) - (ctz x.bn_ : Int)
        · rw [if_pos h3] at hc
          exact absurd hc mkNaN_not_normal
        · rw [if_neg h3] at hc ⊢
          have hbn : x.bn_ ≠ 0 := fun h0 => h1 (Or.inr h0)
          obtain ⟨hodd, hmul⟩ := ctz_spec hbn
          refine ⟨hx, rfl, hodd, ?_, ?_⟩
          · show x.bn_exp_ + (ctz x.bn_ : Int) + (bitlen (x.bn_ >>> ctz x.bn_) : Int) =
              x.exp'
            rw [bitlen_shiftRight_ctz hbn]
            have := ctz_le_bitlen hbn
            unfold exp'
            omega
          · rw [val_normal hc, val_normal hx]
            show (x.sign_ : ℚ) * ((x.bn_ >>> ctz x.bn_ : Nat) : ℚ) *
                (2 : ℚ) ^ (x.bn_exp_ + (ctz x.bn_ : Int)) = _
            have hq : ((x.bn_ >>> ctz x.bn_ : Nat) : ℚ) *
                (2 : ℚ) ^ (ctz x.bn_ : Nat) = (x.bn_ : ℚ) := by
              exact_mod_cast congrArg (Nat.cast : Nat → ℚ) hmul
            rw [zpow_add₀ (two_ne_zero) x.bn_exp_ ((ctz x.bn_ : Nat) : Int),
              zpow_natCast, ← hq]
            ring
  · rw [canonicalize_not_normal hx] at hc
    exact absurd hc hx

/-- `canonicalize` establishes the well-formedness invariant whenever the
sign is a valid sign and non-normal inputs have a zero mantissa. -/
theorem canonicalize_wf {x : ExactFloat} (hs : x.sign_ = 1 ∨ x.sign_ = -1)
    (h0 : ¬ x.is_normal → x.bn_ = 0) : (canonicalize x).wf := by
  by_cases hx : x.is_normal
  · rw [canonicalize_eq hx]
    by_cases h1 : x.exp' < kMinExp ∨ x.bn_ = 0
    · rw [if_pos h1]
      exact ⟨hs, fun h => absurd h (mkZero_not_normal _), fun _ => rfl⟩
    · rw [if_neg h1]
      by_cases h2 : x.exp' > kMaxExp
      · rw [if_pos h2]
        exact ⟨hs, fun h => absurd h (mkInf_not_normal _), fun _ => rfl⟩
      · rw [if_neg h2]
        by_cases h3 : kMaxPrec < (bitlen x.bn_ : Int) - (ctz x.bn_ : Int)
        · rw [if_pos h3]
          exact ⟨Or.inl rfl, fun h => absurd h mkNaN_not_normal, fun _ => rfl⟩
        · rw [if_neg h3]
          have hbn : x.bn_ ≠ 0 := fun hb => h1 (Or.inr hb)
          obtain ⟨hodd, hmul⟩ := ctz_spec hbn
          have hble := ctz_le_bitlen hbn
          have hr : (⟨x.sign_, x.bn_exp_ + (ctz x.bn_ : Int),
              x.bn_ >>> ctz x.bn_⟩ : ExactFloat).exp' = x.exp' := by
            show x.bn_exp_ + (ctz x.bn_ : Int) + (bitlen (x.bn_ >>> ctz x.bn_) : Int) =
              x.exp'
            rw [bitlen_shiftRight_ctz hbn]
            unfold exp'
            omega
          refine ⟨hs, fun _ => ⟨hodd, ?_, ?_, ?_⟩, fun hnn => ?_⟩
          · show ((bitlen (x.bn_ >>> ctz x.bn_) : Nat) : Int) ≤ kMaxPrec
            rw [bitlen_shiftRight_ctz hbn]
            omega
          · rw [hr]; omega
          · rw [hr]; omega
          · exfalso
            apply hnn
            show x.bn_exp_ + (ctz x.bn_ : Int) < kExpZero
            unfold exp' at h2
            have := kExp_lt
            omega
  · rw [canonicalize_not_normal hx]
    exact ⟨hs, fun h => absurd h hx, fun _ => h0 hx⟩

end ExactFloat

namespace ExactFloat

/-! ### Claim theorems -/

/-- C4: addition and subtraction on special values follow the IEEE table:
`NaN + x = NaN` for every `x` (on either side); `(+∞) + (−∞) = NaN`;
`(+0) + (+0) = +0`; `(−0) + (−0) = −0`; and `(+0) + (−0) = +0` (same-sign
zeros keep their sign, opposite-sign zeros yield `+0`). -/
theorem c4_special_value_addition :
    (∀ x : ExactFloat, (add mkNaN x).is_nan ∧ (add x mkNaN).is_nan) ∧
      (add (mkInf 1) (mkInf (-1))).is_nan ∧
      add (mkZero 1) (mkZero 1) = mkZero 1 ∧
      add (mkZero (-1)) (mkZero (-1)) = mkZero (-1) ∧
      add (mkZero 1) (mkZero (-1)) = mkZero 1 ∧
      add (mkZero (-1)) (mkZero 1) = mkZero 1 := by
  refine ⟨fun x => ⟨?_, ?_⟩, ?_, ?_, ?_, ?_, ?_⟩
  · show (signedSum mkNaN.sign_ mkNaN x.sign_ x).is_nan
    unfold signedSum
    rw [if_pos (Or.inl mkNaN_not_normal), if_pos mkNaN_is_nan]
    exact mkNaN_is_nan
  · show (signedSum x.sign_ x mkNaN.sign_ mkNaN).is_nan
    unfold signedSum
    rw [if_pos (Or.inr mkNaN_not_normal)]
    by_cases hx : x.is_nan
    · rw [if_pos hx]
      exact hx
    · rw [if_neg hx, if_pos mkNaN_is_nan]
      exact mkNaN_is_nan
  · decide
  · decide
  · decide
  · decide
  · decide

end ExactFloat

namespace ExactFloat

/-- `canonicalize` of a record with in-range sentinel-free exponent, odd
mantissa, and precision within bounds never yields NaN. -/
theorem canonicalize_mk_not_nan (s e : Int) (m : Nat) (hnorm : e < kExpZero)
    (hodd : m % 2 = 1) (hprec : (bitlen m : Int) ≤ kMaxPrec) :
    ¬ (canonicalize ⟨s, e, m⟩).is_nan := by
  have hk := kExp_lt
  have hy : (⟨s, e, m⟩ : ExactFloat).is_normal := hnorm
  have hctz : ctz m = 0 := ctz_odd hodd
  rw [canonicalize_eq hy]
  split_ifs with h1 h2 h3
  · exact mkZero_not_nan _
  · exact mkInf_not_nan _
  · exfalso
    have h3' : kMaxPrec < (bitlen m : Int) - (ctz m : Int) := h3
    rw [hctz] at h3'
    omega
  · show ¬ (e + (ctz m : Int) = kExpNaN)
    rw [hctz]
    omega

/-- C10: canonicalization preserves the bounded-exponent invariant by
saturating rather than producing NaN: an adjusted exponent above the
maximum yields a signed infinity of the same sign, an adjusted exponent
below the minimum (or a zero mantissa) yields a signed zero of the same
sign, and exponent overflow/underflow never yields NaN; in particular
`ldexp` of a well-formed finite value never yields NaN. -/
theorem c10_exponent_saturation (x : ExactFloat) (hx : x.is_normal) :
    ((x.exp' < kMinExp ∨ x.bn_ = 0) → canonicalize x = mkZero x.sign_) ∧
      (kMaxExp < x.exp' → x.bn_ ≠ 0 → canonicalize x = mkInf x.sign_) ∧
      ((x.exp' < kMinExp ∨ kMaxExp < x.exp') → ¬ (canonicalize x).is_nan) ∧
      (∀ n : Int, x.wf → ¬ (ldexpEF x n).is_nan) := by
  have hk := kExp_lt
  refine ⟨?_, ?_, ?_, ?_⟩
  · intro h
    rw [canonicalize_eq hx, if_pos h]
  · intro h2 hbn
    rw [canonicalize_eq hx, if_neg (by omega), if_pos h2]
  · intro h
    rcases h with h | h
    · rw [canonicalize_eq hx, if_pos (Or.inl h)]
      exact mkZero_not_nan _
    · by_cases hbn : x.bn_ = 0
      · rw [canonicalize_eq hx, if_pos (Or.inr hbn)]
        exact mkZero_not_nan _
      · rw [canonicalize_eq hx, if_neg (by omega), if_pos h]
        exact mkInf_not_nan _
  · intro n hwf
    obtain ⟨hs, hnorm, hnn⟩ := hwf
    obtain ⟨hodd, hprec, hlo, hhi⟩ := hnorm hx
    have hbn : x.bn_ ≠ 0 := by omega
    have hbl : 1 ≤ bitlen x.bn_ := lt_bitlen.mpr (by simpa using Nat.pos_iff_ne_zero.mpr hbn)
    unfold ldexpEF
    rw [if_neg (not_not_intro hx)]
    show ¬ (canonicalize ⟨x.sign_,
        x.bn_exp_ + min (kMaxExp + 1 - x.exp') (max (kMinExp - 1 + x.exp') n),
        x.bn_⟩).is_nan
    set e' := min (kMaxExp + 1 - x.exp') (max (kMinExp - 1 + x.exp') n) with he'
    have hup : e' ≤ kMaxExp + 1 - x.exp' := min_le_left _ _
    refine canonicalize_mk_not_nan _ _ _ ?_ hodd ?_
    · unfold exp' at hup
      omega
    · unfold prec at hprec
      exact hprec

/-- Witness for C10 at concrete inputs: an exponent 5 below the minimum
underflows to `+0`, an exponent 1 above the maximum overflows to `+∞`
and is not NaN, and `ldexp(1, 3·10^8)` is not NaN. -/
theorem c10_exponent_saturation_witness :
    canonicalize ⟨1, kMinExp - 5, 1⟩ = mkZero 1 ∧
      canonicalize ⟨1, kMaxExp, 1⟩ = mkInf 1 ∧
      ¬ (canonicalize ⟨1, kMaxExp, 1⟩).is_nan ∧
      ¬ (ldexpEF ⟨1, 0, 1⟩ 300000000).is_nan :=
  ⟨(c10_exponent_saturation ⟨1, kMinExp - 5, 1⟩ (by decide)).1 (by decide),
    ((c10_exponent_saturation ⟨1, kMaxExp, 1⟩ (by decide)).2.1 (by decide) (by decide)),
    ((c10_exponent_saturation ⟨1, kMaxExp, 1⟩ (by decide)).2.2.1 (by decide)),
    ((c10_exponent_saturation ⟨1, 0, 1⟩ (by decide)).2.2.2 300000000 (by decide))⟩

end ExactFloat

namespace ExactFloat

theorem prec_mkZero (s : Int) : (mkZero s).prec = 0 := rfl

theorem prec_mkInf (s : Int) : (mkInf s).prec = 0 := rfl

theorem kMaxPrec_nonneg : (0 : Int) ≤ kMaxPrec := by decide

/-- `operator*` written out (the `let` for the result sign inlined). -/
theorem mul_eq (a b : ExactFloat) :
    mul a b =
      if ¬ a.is_normal ∨ ¬ b.is_normal then
        if a.is_nan then a
        else if b.is_nan then b
        else if a.is_inf then
          if b.is_zero then mkNaN else mkInf (a.sign_ * b.sign_)
        else if b.is_inf then
          if a.is_zero then mkNaN else mkInf (a.sign_ * b.sign_)
        else mkZero (a.sign_ * b.sign_)
      else canonicalize ⟨a.sign_ * b.sign_, a.bn_exp_ + b.bn_exp_,
        a.bn_ * b.bn_⟩ := rfl

theorem odd_mul_odd {m n : Nat} (hm : m % 2 = 1) (hn : n % 2 = 1) :
    m * n % 2 = 1 := by
  rw [Nat.mul_mod, hm, hn]

/-- `canonicalize` of a record whose precision fits returns a value of
precision at most `kMaxPrec` unless it collapses to NaN. -/
theorem canonicalize_mk_prec (s e : Int) (m : Nat) (he : e < kExpZero)
    (h : ¬ (canonicalize ⟨s, e, m⟩).is_nan) :
    (canonicalize ⟨s, e, m⟩).prec ≤ kMaxPrec := by
  have hy : (⟨s, e, m⟩ : ExactFloat).is_normal := he
  rw [canonicalize_eq hy] at h ⊢
  split_ifs at h ⊢ with h1 h2 h3
  · exact le_of_eq_of_le (prec_mkZero _) kMaxPrec_nonneg
  · exact le_of_eq_of_le (prec_mkInf _) kMaxPrec_nonneg
  · exact absurd mkNaN_is_nan h
  · have hm : m ≠ 0 := by
      intro h0
      exact h1 (Or.inr h0)
    show ((bitlen (m >>> ctz m) : Nat) : Int) ≤ kMaxPrec
    rw [bitlen_shiftRight_ctz hm]
    have h3' : ¬ kMaxPrec < (bitlen m : Int) - (ctz m : Int) := h3
    have := ctz_le_bitlen hm
    omega

theorem kExp_bounds : 2 * kMaxExp < kExpZero ∧
    kMinExp < 0 ∧ 0 < kMaxExp ∧ 0 < kMaxPrec := by
  refine ⟨?_, ?_, ?_, ?_⟩ <;> decide

/-- `canonicalize_eq` restated on an explicit record, with the structure
projections reduced. -/
theorem canonicalize_mk_eq (s e : Int) (m : Nat) (he : e < kExpZero) :
    canonicalize ⟨s, e, m⟩ =
      if e + (bitlen m : Int) < kMinExp ∨ m = 0 then mkZero s
      else if e + (bitlen m : Int) > kMaxExp then mkInf s
      else if kMaxPrec < (bitlen m : Int) - (ctz m : Int) then mkNaN
      else ⟨s, e + (ctz m : Int), m >>> ctz m⟩ :=
  canonicalize_eq he

/-- `canonicalize` of a record with odd mantissa, exponent in range but
precision above `kMaxPrec` collapses to NaN. -/
theorem canonicalize_mk_nan (s e : Int) (m : Nat) (hodd : m % 2 = 1)
    (h1 : kMinExp ≤ e + (bitlen m : Int)) (h2 : e + (bitlen m : Int) ≤ kMaxExp)
    (h3 : kMaxPrec < (bitlen m : Int)) : canonicalize ⟨s, e, m⟩ = mkNaN := by
  have hk := kExp_lt
  have hy : e < kExpZero := by
    have : (0 : Int) ≤ (bitlen m : Int) := Int.natCast_nonneg _
    omega
  have hm0 : m ≠ 0 := by omega
  rw [canonicalize_mk_eq s e m hy,
    if_neg (by omega : ¬ (e + (bitlen m : Int) < kMinExp ∨ m = 0)),
    if_neg (by omega : ¬ e + (bitlen m : Int) > kMaxExp),
    if_pos (by rw [ctz_odd hodd]; omega)]

/-- C2: multiplication never silently rounds: whenever the (canonical)
product mantissa would need more than `kMaxPrec` bits while the exponent
stays in range, the result is the NaN state; consequently every non-NaN
result of multiplication of well-formed values has precision at most
`kMaxPrec`. -/
theorem c2_mul_precision (a b : ExactFloat) (ha : a.wf) (hb : b.wf) :
    (¬ (mul a b).is_nan → (mul a b).prec ≤ kMaxPrec) ∧
      (a.is_normal → b.is_normal →
        kMinExp ≤ a.bn_exp_ + b.bn_exp_ + (bitlen (a.bn_ * b.bn_) : Int) →
        a.bn_exp_ + b.bn_exp_ + (bitlen (a.bn_ * b.bn_) : Int) ≤ kMaxExp →
        kMaxPrec < (bitlen (a.bn_ * b.bn_) : Int) →
        (mul a b).is_nan) := by
  constructor
  · intro hnan
    rw [mul_eq] at hnan ⊢
    by_cases hns : ¬ a.is_normal ∨ ¬ b.is_normal
    · rw [if_pos hns] at hnan ⊢
      split_ifs at hnan ⊢ with g1 g2 g3 g4 g5 g6
      · exact absurd g1 hnan
      · exact absurd g2 hnan
      · exact absurd mkNaN_is_nan hnan
      · exact le_of_eq_of_le (prec_mkInf _) kMaxPrec_nonneg
      · exact absurd mkNaN_is_nan hnan
      · exact le_of_eq_of_le (prec_mkInf _) kMaxPrec_nonneg
      · exact le_of_eq_of_le (prec_mkZero _) kMaxPrec_nonneg
    · rw [if_neg hns] at hnan ⊢
      push_neg at hns
      have hk := kExp_lt
      obtain ⟨-, hwa, -⟩ := ha
      obtain ⟨-, hwb, -⟩ := hb
      obtain ⟨-, -, -, hha⟩ := hwa hns.1
      obtain ⟨-, -, -, hhb⟩ := hwb hns.2
      refine canonicalize_mk_prec _ _ _ ?_ hnan
      unfold exp' at hha hhb
      have ba : (0 : Int) ≤ (bitlen a.bn_ : Int) := Int.natCast_nonneg _
      have bb : (0 : Int) ≤ (bitlen b.bn_ : Int) := Int.natCast_nonneg _
      have hkb := kExp_bounds
      omega
  · intro hna hnb h1 h2 h3
    rw [mul_eq, if_neg (by simp [hna, hnb])]
    obtain ⟨-, hwa, -⟩ := ha
    obtain ⟨-, hwb, -⟩ := hb
    rw [canonicalize_mk_nan _ _ _ (odd_mul_odd (hwa hna).1 (hwb hnb).1) h1 h2 h3]
    exact mkNaN_is_nan

end ExactFloat

namespace ExactFloat

/-- `1 <<< k` is `2^k`. -/
theorem shl_one_pow (k : Nat) : (1 <<< k : Nat) = 2 ^ k := by
  rw [Nat.shiftLeft_eq, one_mul]

/-- Bit length of `2^k + 1`. -/
theorem bitlen_shl_add_one {k : Nat} (hk : 1 ≤ k) :
    bitlen ((1 <<< k) + 1) = k + 1 := by
  rw [shl_one_pow]
  refine bitlen_unique (Nat.le_add_right _ _) ?_
  have h1 : (1 : Nat) < 2 ^ k := Nat.one_lt_two_pow (by omega)
  rw [pow_succ]
  omega

/-- Bit length of `(2^k + 1)^2`. -/
theorem bitlen_sq_shl_add_one {k : Nat} (hk : 2 ≤ k) :
    bitlen (((1 <<< k) + 1) * ((1 <<< k) + 1)) = 2 * k + 1 := by
  rw [shl_one_pow]
  have h1 : (1 : Nat) < 2 ^ k := Nat.one_lt_two_pow (by omega)
  have hsq : (2 ^ k + 1) * (2 ^ k + 1) = 2 ^ (k + k) + 2 * 2 ^ k + 1 := by
    rw [pow_add]
    ring
  have h2 : (2 : Nat) * 2 ^ k + 1 < 2 ^ (k + k) := by
    have e1 : (2 : Nat) * 2 ^ k + 1 < 2 ^ (k + 2) := by
      rw [pow_add]
      have := Nat.two_pow_pos k
      norm_num
      omega
    have e2 : (2 : Nat) ^ (k + 2) ≤ 2 ^ (k + k) :=
      Nat.pow_le_pow_right (by norm_num) (by omega)
    omega
  rw [hsq, show 2 * k + 1 = (k + k) + 1 by omega]
  refine bitlen_unique (by omega) ?_
  rw [pow_succ]
  omega

/-- Witness for C2: squaring the 33554433-bit value `c2big = 2^33554432 + 1`
produces a 67108865-bit mantissa, which exceeds `kMaxPrec = 64·2^20` and
collapses to NaN. -/
theorem c2_mul_precision_witness :
    (⟨1, 0, c2big⟩ : ExactFloat).wf ∧
      (mul ⟨1, 0, c2big⟩ ⟨1, 0, c2big⟩).is_nan := by
  have hodd : c2big % 2 = 1 := by decide
  have hb1 : bitlen c2big = 33554433 := by
    show bitlen ((1 <<< 33554432) + 1) = 33554433
    rw [bitlen_shl_add_one (by norm_num)]
  have hb2 : bitlen (c2big * c2big) = 67108865 := by
    show bitlen (((1 <<< 33554432) + 1) * ((1 <<< 33554432) + 1)) = 67108865
    rw [bitlen_sq_shl_add_one (by norm_num)]
  have hwf : (⟨1, 0, c2big⟩ : ExactFloat).wf := by
    refine ⟨Or.inl rfl, fun _ => ⟨hodd, ?_, ?_, ?_⟩,
      fun hn => absurd (show ((0 : Int) < kExpZero) by decide) hn⟩
    · show ((bitlen c2big : Nat) : Int) ≤ kMaxPrec
      rw [hb1]
      decide
    · show kMinExp ≤ (0 : Int) + (bitlen c2big : Int)
      rw [hb1]
      decide
    · show (0 : Int) + (bitlen c2big : Int) ≤ kMaxExp
      rw [hb1]
      decide
  refine ⟨hwf, (c2_mul_precision _ _ hwf hwf).2 (by decide) (by decide) ?_ ?_ ?_⟩
  · show kMinExp ≤ (0 : Int) + 0 + (bitlen (c2big * c2big) : Int)
    rw [hb2]
    decide
  · show (0 : Int) + 0 + (bitlen (c2big * c2big) : Int) ≤ kMaxExp
    rw [hb2]
    decide
  · show kMaxPrec < (bitlen (c2big * c2big) : Int)
    rw [hb2]
    decide

end ExactFloat

namespace ExactFloat

theorem mcanon_mkZero (s : Int) : (mkZero s).mcanon := Or.inl rfl

theorem mcanon_mkInf (s : Int) : (mkInf s).mcanon := Or.inl rfl

theorem mcanon_mkNaN : mkNaN.mcanon := Or.inl rfl

/-- `canonicalize` of a normal value always has an odd-or-zero mantissa. -/
theorem canonicalize_mcanon_of_normal {x : ExactFloat} (hx : x.is_normal) :
    (canonicalize x).mcanon := by
  rw [canonicalize_eq hx]
  split_ifs with h1 h2 h3
  · exact mcanon_mkZero _
  · exact mcanon_mkInf _
  · exact mcanon_mkNaN
  · have hbn : x.bn_ ≠ 0 := fun h0 => h1 (Or.inr h0)
    exact Or.inr (ctz_spec hbn).1

/-- `canonicalize` preserves the odd-or-zero mantissa invariant. -/
theorem canonicalize_mcanon {x : ExactFloat} (hm : x.mcanon) :
    (canonicalize x).mcanon := by
  by_cases hx : x.is_normal
  · exact canonicalize_mcanon_of_normal hx
  · rw [canonicalize_not_normal hx]
    exact hm

theorem mcanon_CopyWithSign {x : ExactFloat} (hm : x.mcanon) (s : Int) :
    (x.CopyWithSign s).mcanon := hm

/-- `SignedSum` written out for normal operands. -/
theorem signedSum_normal_eq (sa : Int) (a : ExactFloat) (sb : Int)
    (b : ExactFloat) (ha : a.is_normal) (hb : b.is_normal) :
    signedSum sa a sb b =
      (fun (q : Int × ExactFloat × Int × ExactFloat) =>
        let abn := q.2.1.bn_ <<< (q.2.1.bn_exp_ - q.2.2.2.bn_exp_).toNat
        if q.1 = q.2.2.1 then
          canonicalize ⟨q.1, q.2.2.2.bn_exp_, abn + q.2.2.2.bn_⟩
        else
          let d : Int := (abn : Int) - (q.2.2.2.bn_ : Int)
          if d = 0 then canonicalize ⟨1, q.2.2.2.bn_exp_, 0⟩
          else if d < 0 then canonicalize ⟨q.2.2.1, q.2.2.2.bn_exp_, (-d).toNat⟩
          else canonicalize ⟨q.1, q.2.2.2.bn_exp_, d.toNat⟩)
        (if a.bn_exp_ < b.bn_exp_ then (sb, b, sa, a) else (sa, a, sb, b)) := by
  unfold signedSum
  rw [if_neg (by simp [ha, hb])]

/-- The two operands fed to the magnitude routine after the swap are both
normal, so the records passed to `canonicalize` are normal. -/
theorem signedSum_mcanon (sa : Int) (a : ExactFloat) (sb : Int)
    (b : ExactFloat) (hma : a.mcanon) (hmb : b.mcanon) :
    (signedSum sa a sb b).mcanon := by
  by_cases hn : ¬ a.is_normal ∨ ¬ b.is_normal
  · unfold signedSum
    rw [if_pos hn]
    split_ifs <;>
      first
        | exact hma
        | exact hmb
        | exact mcanon_mkNaN
        | exact mcanon_mkInf _
        | exact mcanon_mkZero _
  · push_neg at hn
    rw [signedSum_normal_eq sa a sb b hn.1 hn.2]
    by_cases hsw : a.bn_exp_ < b.bn_exp_
    · rw [if_pos hsw]
      dsimp only
      split_ifs <;> exact canonicalize_mcanon_of_normal hn.1
    · rw [if_neg hsw]
      dsimp only
      split_ifs <;> exact canonicalize_mcanon_of_normal hn.2

end ExactFloat

namespace ExactFloat

/-- Multiplication preserves the odd-or-zero mantissa invariant. -/
theorem mul_mcanon {a b : ExactFloat} (hma : a.mcanon) (hmb : b.mcanon) :
    (mul a b).mcanon := by
  rw [mul_eq]
  split_ifs
  · exact hma
  · exact hmb
  · exact mcanon_mkNaN
  · exact mcanon_mkInf _
  · exact mcanon_mkNaN
  · exact mcanon_mkInf _
  · exact mcanon_mkZero _
  · refine canonicalize_mcanon ?_
    rcases hma with h0 | hodd
    · exact Or.inl (by show a.bn_ * b.bn_ = 0; rw [h0, Nat.zero_mul])
    · rcases hmb with h0 | hodd'
      · exact Or.inl (by show a.bn_ * b.bn_ = 0; rw [h0, Nat.mul_zero])
      · exact Or.inr (odd_mul_odd hodd hodd')

/-- Rounding preserves the odd-or-zero mantissa invariant (for a rounding
bit position within the legal range, as the source `ABSL_DCHECK`s). -/
theorem roundToPowerOf2_mcanon (x : ExactFloat) (bit_exp : Int)
    (mode : RoundingMode) (hbe : bit_exp ≤ kMaxExp) (hmx : x.mcanon) :
    (roundToPowerOf2 x bit_exp mode).mcanon := by
  unfold roundToPowerOf2
  by_cases h : bit_exp - x.bn_exp_ ≤ 0
  · rw [if_pos h]
    exact hmx
  · rw [if_neg h]
    refine canonicalize_mcanon_of_normal ?_
    show x.bn_exp_ + ((bit_exp - x.bn_exp_).toNat : Int) < kExpZero
    rw [Int.toNat_of_nonneg (by omega)]
    have := kExp_lt
    omega

/-- The constructor from a (valid) double yields an odd-or-zero mantissa. -/
theorem ofDouble_mcanon (d : FpDouble) (hv : validDouble d) :
    (ofDouble d).mcanon := by
  cases d with
  | nan neg => exact mcanon_mkNaN
  | inf neg => exact mcanon_mkInf _
  | finite neg m e =>
      refine canonicalize_mcanon_of_normal ?_
      show e + (bitlen m : Int) - 53 < kExpZero
      have hm53 : m < 2 ^ 53 := by
        rcases hv with ⟨-, h⟩ | ⟨-, -, -, h⟩
        · calc m < 2 ^ 52 := h
            _ ≤ 2 ^ 53 := by norm_num
        · exact h
      have hb53 : bitlen m ≤ 53 := bitlen_le.mpr hm53
      have he : e ≤ 971 := by
        rcases hv with ⟨h, -⟩ | ⟨-, h, -, -⟩
        · omega
        · exact h
      have hz : (971 : Int) + 53 < kExpZero := by decide
      omega

/-- The constructor from an int yields an odd-or-zero mantissa. -/
theorem ofInt_mcanon (v : Int) : (ofInt v).mcanon := by
  refine canonicalize_mcanon_of_normal ?_
  show (0 : Int) < kExpZero
  decide

end ExactFloat

namespace ExactFloat

/-- Odd mantissas with equal magnitudes `m·2^e` force equal mantissas and
equal exponents (uniqueness of the canonical representation). -/
theorem odd_mag_inj {ma mb : Nat} {ea eb : Int} (ha : ma % 2 = 1)
    (hb : mb % 2 = 1) (hle : eb ≤ ea)
    (h : (ma : ℚ) * (2 : ℚ) ^ ea = (mb : ℚ) * (2 : ℚ) ^ eb) :
    ma = mb ∧ ea = eb := by
  have hd : ea = eb + ((ea - eb).toNat : Int) := by
    rw [Int.toNat_of_nonneg (by omega)]
    omega
  rw [hd, zpow_add₀ (two_ne_zero) eb, zpow_natCast] at h
  have h2e : (2 : ℚ) ^ eb ≠ 0 := zpow_ne_zero _ two_ne_zero
  have h' : ((ma : ℚ) * 2 ^ (ea - eb).toNat) * (2 : ℚ) ^ eb =
      (mb : ℚ) * (2 : ℚ) ^ eb := by
    rw [← h]
    ring
  have hq : (ma : ℚ) * 2 ^ (ea - eb).toNat = (mb : ℚ) :=
    mul_right_cancel₀ h2e h'
  have hn : ma * 2 ^ (ea - eb).toNat = mb := by
    exact_mod_cast hq
  rcases Nat.eq_zero_or_pos (ea - eb).toNat with hz | hp
  · rw [hz, pow_zero, Nat.mul_one] at hn
    omega
  · exfalso
    obtain ⟨k, hk⟩ : ∃ k, (ea - eb).toNat = k + 1 := ⟨_, (Nat.succ_pred_eq_of_pos hp).symm⟩
    rw [hk, pow_succ, ← Nat.mul_assoc] at hn
    omega

/-- Equal represented values of well-formed normal (finite nonzero)
`ExactFloat`s have identical sign/exponent/mantissa fields. -/
theorem normal_val_inj {a b : ExactFloat} (ha : a.wf) (hb : b.wf)
    (hna : a.is_normal) (hnb : b.is_normal) (hv : val a = val b) : a = b := by
  obtain ⟨hsa, hwa, -⟩ := ha
  obtain ⟨hsb, hwb, -⟩ := hb
  obtain ⟨hodda, -, -, -⟩ := hwa hna
  obtain ⟨hoddb, -, -, -⟩ := hwb hnb
  rw [val_normal hna, val_normal hnb] at hv
  have hma : (1 : ℚ) ≤ (a.bn_ : ℚ) := by
    have : 1 ≤ a.bn_ := by omega
    exact_mod_cast this
  have hmb : (1 : ℚ) ≤ (b.bn_ : ℚ) := by
    have : 1 ≤ b.bn_ := by omega
    exact_mod_cast this
  have hza : (0 : ℚ) < (2 : ℚ) ^ a.bn_exp_ := zpow_pos (by norm_num) _
  have hzb : (0 : ℚ) < (2 : ℚ) ^ b.bn_exp_ := zpow_pos (by norm_num) _
  have hmag : (a.bn_ : ℚ) * (2 : ℚ) ^ a.bn_exp_ = (b.bn_ : ℚ) * (2 : ℚ) ^ b.bn_exp_ ∧
      a.sign_ = b.sign_ := by
    rcases hsa with h1 | h1 <;> rcases hsb with h2 | h2 <;>
      rw [h1, h2] at hv ⊢ <;> push_cast at hv
    · exact ⟨by linarith, rfl⟩
    · nlinarith
    · nlinarith
    · exact ⟨by linarith, rfl⟩
  have hfields : a.bn_ = b.bn_ ∧ a.bn_exp_ = b.bn_exp_ := by
    rcases le_total b.bn_exp_ a.bn_exp_ with hle | hle
    · exact (odd_mag_inj hodda hoddb hle hmag.1).imp id id
    · obtain ⟨e1, e2⟩ := odd_mag_inj hoddb hodda hle hmag.1.symm
      exact ⟨e1.symm, e2.symm⟩
  obtain ⟨f1, f2⟩ := hfields
  obtain ⟨s1, e1, m1⟩ := a
  obtain ⟨s2, e2, m2⟩ := b
  simp_all

end ExactFloat

namespace ExactFloat

/-- C6 counterexample: the claim as stated fails for signed zeros, which
are equal finite values (`+0 == -0` is true) whose (sign, exponent,
mantissa) representations differ in the sign field. -/
theorem c6_signed_zero_counterexample :
    efEq (mkZero 1) (mkZero (-1)) = true ∧ mkZero 1 ≠ mkZero (-1) := by
  decide

/-- C6 (amended): after the constructors and every arithmetic/rounding
operation the mantissa is zero or odd (trailing zero bits are shifted into
the exponent), and any two equal well-formed *normal* (finite nonzero)
values have bit-identical (sign, exponent, mantissa) representations;
equal zeros may differ in sign. -/
theorem c6_canonical_form :
    (∀ d : FpDouble, validDouble d → (ofDouble d).mcanon) ∧
      (∀ v : Int, (ofInt v).mcanon) ∧
      (∀ a b : ExactFloat, a.mcanon → b.mcanon →
        (add a b).mcanon ∧ (sub a b).mcanon ∧ (mul a b).mcanon) ∧
      (∀ (x : ExactFloat) (bit_exp : Int) (mode : RoundingMode),
        bit_exp ≤ kMaxExp → x.mcanon → (roundToPowerOf2 x bit_exp mode).mcanon) ∧
      (∀ a b : ExactFloat, a.wf → b.wf → a.is_normal → b.is_normal →
        val a = val b → a = b) :=
  ⟨ofDouble_mcanon, ofInt_mcanon,
    fun a b hma hmb =>
      ⟨signedSum_mcanon _ _ _ _ hma hmb, signedSum_mcanon _ _ _ _ hma hmb,
        mul_mcanon hma hmb⟩,
    fun x be mode hbe hmx => roundToPowerOf2_mcanon x be mode hbe hmx,
    fun a b ha hb hna hnb hv => normal_val_inj ha hb hna hnb hv⟩

/-- Witness for C6 at concrete inputs: the negative-zero double, the int
26, a sum, a rounding, and the uniqueness clause at `13·2^1`. -/
theorem c6_canonical_form_witness :
    validDouble (FpDouble.finite true 0 (-1074)) ∧
      (ofDouble (FpDouble.finite true 0 (-1074))).mcanon ∧
      (ofInt 26).mcanon ∧
      (⟨1, 1, 13⟩ : ExactFloat).mcanon ∧ (⟨1, 0, 1⟩ : ExactFloat).mcanon ∧
      (add ⟨1, 1, 13⟩ ⟨1, 0, 1⟩).mcanon ∧
      (roundToPowerOf2 ⟨1, 0, 13⟩ 2 RoundingMode.tiesToEven).mcanon ∧
      (⟨1, 1, 13⟩ : ExactFloat).wf ∧
      (⟨1, 1, 13⟩ : ExactFloat) = ⟨1, 1, 13⟩ :=
  ⟨by decide,
    c6_canonical_form.1 _ (by decide),
    c6_canonical_form.2.1 26,
    by decide, by decide,
    (c6_canonical_form.2.2.1 _ _ (by decide) (by decide)).1,
    c6_canonical_form.2.2.2.1 _ _ _ (by decide) (by decide),
    by decide,
    c6_canonical_form.2.2.2.2 _ _ (by decide) (by decide) (by decide) (by decide) rfl⟩

end ExactFloat

namespace ExactFloat

/-- Uniqueness of the odd × power-of-two factorization. -/
theorem odd_factor_unique {m m' k j : Nat} (hm : m % 2 = 1) (hm' : m' % 2 = 1)
    (h : m * 2 ^ k = m' * 2 ^ j) : m = m' ∧ k = j := by
  rcases le_total k j with hle | hle
  · obtain ⟨d, rfl⟩ : ∃ d, j = k + d := ⟨j - k, by omega⟩
    rw [show m' * 2 ^ (k + d) = m' * 2 ^ d * 2 ^ k by rw [pow_add]; ring] at h
    have hc := Nat.eq_of_mul_eq_mul_right (Nat.two_pow_pos k) h
    rcases Nat.eq_zero_or_pos d with rfl | hd
    · rw [pow_zero, Nat.mul_one] at hc
      exact ⟨hc, by omega⟩
    · exfalso
      obtain ⟨e, rfl⟩ : ∃ e, d = e + 1 := ⟨d - 1, by omega⟩
      rw [pow_succ, ← Nat.mul_assoc] at hc
      omega
  · obtain ⟨d, rfl⟩ : ∃ d, k = j + d := ⟨k - j, by omega⟩
    rw [show m * 2 ^ (j + d) = m * 2 ^ d * 2 ^ j by rw [pow_add]; ring] at h
    have hc := Nat.eq_of_mul_eq_mul_right (Nat.two_pow_pos j) h
    rcases Nat.eq_zero_or_pos d with rfl | hd
    · rw [pow_zero, Nat.mul_one] at hc
      exact ⟨hc, by omega⟩
    · exfalso
      obtain ⟨e, rfl⟩ : ∃ e, d = e + 1 := ⟨d - 1, by omega⟩
      rw [pow_succ, ← Nat.mul_assoc] at hc
      omega

/-- `ctz` of `m·2^k` for odd `m` is `k`. -/
theorem ctz_eq_of_odd_factor {n m k : Nat} (hm : m % 2 = 1)
    (h : n = m * 2 ^ k) : ctz n = k := by
  have hn0 : n ≠ 0 := by
    intro h0
    rw [h0] at h
    have := Nat.two_pow_pos k
    rcases Nat.mul_eq_zero.mp h.symm with h1 | h1 <;> omega
  obtain ⟨ho, hs⟩ := ctz_spec hn0
  have := odd_factor_unique ho hm (by rw [hs, ← h])
  exact this.2

/-- `canonicalize` of a record with exponent-range and precision-bound
side conditions keeps the represented value. -/
theorem canonicalize_mk_val (s e : Int) (m : Nat)
    (h1 : kMinExp ≤ e) (h2 : e + (bitlen m : Int) ≤ kMaxExp)
    (h3 : (bitlen m : Int) ≤ kMaxPrec) :
    val (canonicalize ⟨s, e, m⟩) = (s : ℚ) * (m : ℚ) * (2 : ℚ) ^ e := by
  have hk := kExp_lt
  have hb0 : (0 : Int) ≤ (bitlen m : Int) := Int.natCast_nonneg _
  have he : e < kExpZero := by omega
  rcases Nat.eq_zero_or_pos m with rfl | hm
  · rw [canonicalize_mk_eq s e 0 he, if_pos (Or.inr rfl)]
    rw [val_not_normal (mkZero_not_normal _)]
    push_cast
    ring
  · have hm0 : m ≠ 0 := by omega
    have hb1 : 1 ≤ bitlen m := lt_bitlen.mpr (by simpa using hm)
    have hc : (canonicalize ⟨s, e, m⟩).is_normal := by
      rw [canonicalize_mk_eq s e m he,
        if_neg (by omega : ¬ (e + (bitlen m : Int) < kMinExp ∨ m = 0)),
        if_neg (by omega : ¬ e + (bitlen m : Int) > kMaxExp),
        if_neg (by have := ctz_le_bitlen hm0; omega :
          ¬ kMaxPrec < (bitlen m : Int) - (ctz m : Int))]
      show e + (ctz m : Int) < kExpZero
      have := ctz_le_bitlen hm0
      omega
    obtain ⟨hxn, -, -, -, hval⟩ := canonicalize_normal_val hc
    rw [hval, val_normal hxn]

/-- Truncating at least one bit (and possibly incrementing) does not
increase the bit length. -/
theorem bitlen_round_le {n : Nat} (shift : Nat) (hn : n ≠ 0) (hs : 1 ≤ shift)
    (inc : Nat) (hinc : inc ≤ 1) : bitlen ((n >>> shift) + inc) ≤ bitlen n := by
  have hL : 1 ≤ bitlen n := lt_bitlen.mpr (by simpa using Nat.pos_iff_ne_zero.mpr hn)
  obtain ⟨-, h2⟩ := bitlen_sandwich hn
  have hhalf : n >>> shift ≤ n / 2 := by
    rw [Nat.shiftRight_eq_div_pow]
    refine Nat.div_le_div_left ?_ (by norm_num)
    calc (2 : Nat) = 2 ^ 1 := (pow_one 2).symm
      _ ≤ 2 ^ shift := Nat.pow_le_pow_right (by norm_num) hs
  have hpow : 2 ^ bitlen n = 2 ^ (bitlen n - 1) * 2 := by
    rw [← pow_succ]
    congr 1
    omega
  rw [bitlen_le]
  have := Nat.two_pow_pos (bitlen n - 1)
  omega

end ExactFloat

namespace ExactFloat

/-- `RoundToPowerOf2` written out when there are bits to discard. -/
theorem roundToPowerOf2_pos_eq (x : ExactFloat) (bit_exp : Int)
    (mode : RoundingMode) (h : ¬ bit_exp - x.bn_exp_ ≤ 0) :
    roundToPowerOf2 x bit_exp mode =
      canonicalize ⟨x.sign_, x.bn_exp_ + ((bit_exp - x.bn_exp_).toNat : Int),
        (x.bn_ >>> (bit_exp - x.bn_exp_).toNat) +
          (if incrementB x (bit_exp - x.bn_exp_).toNat (modeTowardAway x mode)
            then 1 else 0)⟩ := by
  unfold roundToPowerOf2
  rw [if_neg h]

/-- C5: at an exact tie (first discarded bit 1, all lower discarded bits
0), rounding with ties-to-even yields the candidate whose kept mantissa is
even, and rounding with ties-away-from-zero yields the larger-magnitude
candidate (kept mantissa plus one), both at the requested bit exponent. -/
theorem c5_tie_rounding (x : ExactFloat) (bit_exp : Int)
    (hsh : 0 < bit_exp - x.bn_exp_)
    (htie : x.bn_ % 2 ^ (bit_exp - x.bn_exp_).toNat =
      2 ^ ((bit_exp - x.bn_exp_).toNat - 1))
    (hlo : kMinExp ≤ bit_exp)
    (hhi : bit_exp + (bitlen x.bn_ : Int) ≤ kMaxExp)
    (hprec : (bitlen x.bn_ : Int) ≤ kMaxPrec) :
    val (roundToPowerOf2 x bit_exp RoundingMode.tiesToEven) =
      (x.sign_ : ℚ) *
        ((if (x.bn_ >>> (bit_exp - x.bn_exp_).toNat) % 2 = 0
          then x.bn_ >>> (bit_exp - x.bn_exp_).toNat
          else (x.bn_ >>> (bit_exp - x.bn_exp_).toNat) + 1 : Nat) : ℚ) *
        (2 : ℚ) ^ bit_exp ∧
      val (roundToPowerOf2 x bit_exp RoundingMode.tiesAwayFromZero) =
        (x.sign_ : ℚ) *
          (((x.bn_ >>> (bit_exp - x.bn_exp_).toNat) + 1 : Nat) : ℚ) *
          (2 : ℚ) ^ bit_exp := by
  have hs1 : 1 ≤ (bit_exp - x.bn_exp_).toNat := by omega
  have hsInt : (((bit_exp - x.bn_exp_).toNat : Nat) : Int) = bit_exp - x.bn_exp_ :=
    Int.toNat_of_nonneg (by omega)
  have hpow1 := Nat.two_pow_pos ((bit_exp - x.bn_exp_).toNat - 1)
  have hbn0 : x.bn_ ≠ 0 := by
    intro h0
    rw [h0, Nat.zero_mod] at htie
    omega
  obtain ⟨Q, hQ⟩ : ∃ q, x.bn_ >>> (bit_exp - x.bn_exp_).toNat = q := ⟨_, rfl⟩
  rw [hQ]
  have hdecomp : x.bn_ =
      2 ^ (bit_exp - x.bn_exp_).toNat * Q + 2 ^ ((bit_exp - x.bn_exp_).toNat - 1) := by
    rw [← hQ, Nat.shiftRight_eq_div_pow, ← htie]
    exact (Nat.div_add_mod _ _).symm
  have hps : (2 : Nat) ^ (bit_exp - x.bn_exp_).toNat =
      2 ^ ((bit_exp - x.bn_exp_).toNat - 1) * 2 := by
    rw [← pow_succ]
    congr 1
    omega
  have hfact : x.bn_ = (2 * Q + 1) * 2 ^ ((bit_exp - x.bn_exp_).toNat - 1) := by
    rw [hdecomp, hps]
    ring
  have hg : (x.bn_ >>> ((bit_exp - x.bn_exp_).toNat - 1)) % 2 = 1 := by
    have he : x.bn_ >>> ((bit_exp - x.bn_exp_).toNat - 1) = 2 * Q + 1 := by
      rw [Nat.shiftRight_eq_div_pow, hfact,
        Nat.mul_div_cancel _ (Nat.two_pow_pos _)]
    omega
  have hctz : ctz x.bn_ = (bit_exp - x.bn_exp_).toNat - 1 :=
    ctz_eq_of_odd_factor (by omega) hfact
  have hexp : x.bn_exp_ + (((bit_exp - x.bn_exp_).toNat : Nat) : Int) = bit_exp := by
    omega
  have hb0 : (bitlen Q : Int) ≤ (bitlen x.bn_ : Int) := by
    have h0 := bitlen_round_le ((bit_exp - x.bn_exp_).toNat) hbn0 hs1 0 (by omega)
    rw [Nat.add_zero, hQ] at h0
    exact_mod_cast h0
  have hb1 : (bitlen (Q + 1) : Int) ≤ (bitlen x.bn_ : Int) := by
    have h1 := bitlen_round_le ((bit_exp - x.bn_exp_).toNat) hbn0 hs1 1 (by omega)
    rw [hQ] at h1
    exact_mod_cast h1
  have hAway : incrementB x (bit_exp - x.bn_exp_).toNat
      RoundingMode.tiesAwayFromZero = true := by
    simp [incrementB, hg]
  constructor
  · rw [roundToPowerOf2_pos_eq x bit_exp RoundingMode.tiesToEven (by omega), hQ]
    show val (canonicalize ⟨x.sign_, _, Q +
        (if incrementB x (bit_exp - x.bn_exp_).toNat RoundingMode.tiesToEven
          then 1 else 0)⟩) = _
    by_cases hpar : Q % 2 = 0
    · have hinc : incrementB x (bit_exp - x.bn_exp_).toNat
          RoundingMode.tiesToEven = false := by
        simp only [incrementB, hg, hctz, hQ, decide_eq_false_iff_not]
        intro hcon
        rcases hcon.2 with h1 | h1
        · omega
        · omega
      rw [hinc, if_neg Bool.false_ne_true, Nat.add_zero, hexp, if_pos hpar,
        canonicalize_mk_val _ _ _ hlo (by omega) (by omega)]
    · have hinc : incrementB x (bit_exp - x.bn_exp_).toNat
          RoundingMode.tiesToEven = true := by
        simp only [incrementB, hg, hctz, hQ, decide_eq_true_eq]
        exact ⟨trivial, by omega⟩
      rw [hinc, if_pos rfl, hexp, if_neg hpar,
        canonicalize_mk_val _ _ _ hlo (by omega) (by omega)]
  · rw [roundToPowerOf2_pos_eq x bit_exp RoundingMode.tiesAwayFromZero (by omega), hQ]
    show val (canonicalize ⟨x.sign_, _, Q +
        (if incrementB x (bit_exp - x.bn_exp_).toNat RoundingMode.tiesAwayFromZero
          then 1 else 0)⟩) = _
    rw [hAway, if_pos rfl, hexp,
      canonicalize_mk_val _ _ _ hlo (by omega) (by omega)]

/-- Witness for C5: `x = 6 = 110₂` rounded at bit 2 is a tie; ties-to-even
gives `2·2^2 = 8` (kept mantissa 1 is odd, round up) and
ties-away-from-zero also gives `8`. -/
theorem c5_tie_rounding_witness :
    val (roundToPowerOf2 ⟨1, 0, 6⟩ 2 RoundingMode.tiesToEven) =
      ((1 : Int) : ℚ) * (((6 >>> 2) + 1 : Nat) : ℚ) * (2 : ℚ) ^ (2 : Int) ∧
      val (roundToPowerOf2 ⟨1, 0, 6⟩ 2 RoundingMode.tiesAwayFromZero) =
        ((1 : Int) : ℚ) * (((6 >>> 2) + 1 : Nat) : ℚ) * (2 : ℚ) ^ (2 : Int) := by
  have h := c5_tie_rounding ⟨1, 0, 6⟩ 2 (by decide) (by decide) (by decide)
    (by decide) (by decide)
  refine ⟨?_, h.2⟩
  have h1 := h.1
  rw [if_neg (by decide)] at h1
  exact h1

end ExactFloat

namespace ExactFloat

/-- Value correctness of the aligned magnitude add/subtract performed by
`SignedSum` once the operand with the larger `bn_exp_` (here `u`) has been
identified: whenever the result is normal, it represents exactly
`s·u + t·v`. -/
theorem alignedSum_val (s t : Int) (u v : ExactFloat)
    (hnv : v.is_normal) (hge : v.bn_exp_ ≤ u.bn_exp_)
    (hs : s = 1 ∨ s = -1) (ht : t = 1 ∨ t = -1)
    (hres : (if s = t then
        canonicalize ⟨s, v.bn_exp_,
          (u.bn_ <<< (u.bn_exp_ - v.bn_exp_).toNat) + v.bn_⟩
      else
        if ((u.bn_ <<< (u.bn_exp_ - v.bn_exp_).toNat : Nat) : Int) -
            (v.bn_ : Int) = 0 then
          canonicalize ⟨1, v.bn_exp_, 0⟩
        else if ((u.bn_ <<< (u.bn_exp_ - v.bn_exp_).toNat : Nat) : Int) -
            (v.bn_ : Int) < 0 then
          canonicalize ⟨t, v.bn_exp_,
            (-(((u.bn_ <<< (u.bn_exp_ - v.bn_exp_).toNat : Nat) : Int) -
              (v.bn_ : Int))).toNat⟩
        else
          canonicalize ⟨s, v.bn_exp_,
            ((((u.bn_ <<< (u.bn_exp_ - v.bn_exp_).toNat : Nat) : Int) -
              (v.bn_ : Int))).toNat⟩).is_normal) :
    val (if s = t then
        canonicalize ⟨s, v.bn_exp_,
          (u.bn_ <<< (u.bn_exp_ - v.bn_exp_).toNat) + v.bn_⟩
      else
        if ((u.bn_ <<< (u.bn_exp_ - v.bn_exp_).toNat : Nat) : Int) -
            (v.bn_ : Int) = 0 then
          canonicalize ⟨1, v.bn_exp_, 0⟩
        else if ((u.bn_ <<< (u.bn_exp_ - v.bn_exp_).toNat : Nat) : Int) -
            (v.bn_ : Int) < 0 then
          canonicalize ⟨t, v.bn_exp_,
            (-(((u.bn_ <<< (u.bn_exp_ - v.bn_exp_).toNat : Nat) : Int) -
              (v.bn_ : Int))).toNat⟩
        else
          canonicalize ⟨s, v.bn_exp_,
            ((((u.bn_ <<< (u.bn_exp_ - v.bn_exp_).toNat : Nat) : Int) -
              (v.bn_ : Int))).toNat⟩) =
      (s : ℚ) * (u.bn_ : ℚ) * (2 : ℚ) ^ u.bn_exp_ +
        (t : ℚ) * (v.bn_ : ℚ) * (2 : ℚ) ^ v.bn_exp_ := by
  have hshift : ((u.bn_ <<< (u.bn_exp_ - v.bn_exp_).toNat : Nat) : ℚ) *
      (2 : ℚ) ^ v.bn_exp_ = (u.bn_ : ℚ) * (2 : ℚ) ^ u.bn_exp_ := by
    rw [shift_val,
      show v.bn_exp_ + (((u.bn_exp_ - v.bn_exp_).toNat : Nat) : Int) = u.bn_exp_
        by omega]
  by_cases hst : s = t
  · rw [if_pos hst] at hres ⊢
    obtain ⟨hyn, -, -, -, hval⟩ := canonicalize_normal_val hres
    rw [hval, val_normal hyn]
    subst hst
    push_cast
    linear_combination (s : ℚ) * hshift
  · rw [if_neg hst] at hres ⊢
    by_cases hd0 : ((u.bn_ <<< (u.bn_exp_ - v.bn_exp_).toNat : Nat) : Int) -
        (v.bn_ : Int) = 0
    · exfalso
      rw [if_pos hd0] at hres
      rw [canonicalize_mk_eq 1 v.bn_exp_ 0 hnv, if_pos (Or.inr rfl)] at hres
      exact mkZero_not_normal _ hres
    · rw [if_neg hd0] at hres ⊢
      by_cases hdneg : ((u.bn_ <<< (u.bn_exp_ - v.bn_exp_).toNat : Nat) : Int) -
          (v.bn_ : Int) < 0
      · rw [if_pos hdneg] at hres ⊢
        obtain ⟨hyn, -, -, -, hval⟩ := canonicalize_normal_val hres
        rw [hval, val_normal hyn]
        have hcast : (((-(((u.bn_ <<< (u.bn_exp_ - v.bn_exp_).toNat : Nat) : Int) -
            (v.bn_ : Int))).toNat : Nat) : ℚ) =
            (v.bn_ : ℚ) - ((u.bn_ <<< (u.bn_exp_ - v.bn_exp_).toNat : Nat) : ℚ) := by
          have h1 : (((-(((u.bn_ <<< (u.bn_exp_ - v.bn_exp_).toNat : Nat) : Int) -
              (v.bn_ : Int))).toNat : Nat) : Int) =
              (v.bn_ : Int) - ((u.bn_ <<< (u.bn_exp_ - v.bn_exp_).toNat : Nat) : Int) := by
            omega
          exact_mod_cast congrArg (fun z : Int => (z : ℚ)) h1
        rw [hcast]
        rcases hs with rfl | rfl <;> rcases ht with rfl | rfl
        · exact absurd rfl hst
        · push_cast
          linear_combination (1 : ℚ) * hshift
        · push_cast
          linear_combination (-1 : ℚ) * hshift
        · exact absurd rfl hst
      · rw [if_neg hdneg] at hres ⊢
        obtain ⟨hyn, -, -, -, hval⟩ := canonicalize_normal_val hres
        rw [hval, val_normal hyn]
        have hcast : ((((((u.bn_ <<< (u.bn_exp_ - v.bn_exp_).toNat : Nat) : Int) -
            (v.bn_ : Int))).toNat : Nat) : ℚ) =
            ((u.bn_ <<< (u.bn_exp_ - v.bn_exp_).toNat : Nat) : ℚ) - (v.bn_ : ℚ) := by
          have h1 : ((((((u.bn_ <<< (u.bn_exp_ - v.bn_exp_).toNat : Nat) : Int) -
              (v.bn_ : Int))).toNat : Nat) : Int) =
              ((u.bn_ <<< (u.bn_exp_ - v.bn_exp_).toNat : Nat) : Int) - (v.bn_ : Int) := by
            omega
          exact_mod_cast congrArg (fun z : Int => (z : ℚ)) h1
        rw [hcast]
        rcases hs with rfl | rfl <;> rcases ht with rfl | rfl
        · exact absurd rfl hst
        · push_cast
          linear_combination (1 : ℚ) * hshift
        · push_cast
          linear_combination (-1 : ℚ) * hshift
        · exact absurd rfl hst

end ExactFloat

namespace ExactFloat

/-- `SignedSum` on normal operands represents the exact signed sum of its
operands whenever the result is normal. -/
theorem signedSum_val (sa : Int) (a : ExactFloat) (sb : Int) (b : ExactFloat)
    (hna : a.is_normal) (hnb : b.is_normal)
    (hsa : sa = 1 ∨ sa = -1) (hsb : sb = 1 ∨ sb = -1)
    (hres : (signedSum sa a sb b).is_normal) :
    val (signedSum sa a sb b) =
      (sa : ℚ) * (a.bn_ : ℚ) * (2 : ℚ) ^ a.bn_exp_ +
        (sb : ℚ) * (b.bn_ : ℚ) * (2 : ℚ) ^ b.bn_exp_ := by
  rw [signedSum_normal_eq sa a sb b hna hnb] at hres ⊢
  by_cases hsw : a.bn_exp_ < b.bn_exp_
  · rw [if_pos hsw] at hres ⊢
    dsimp only at hres ⊢
    rw [alignedSum_val sb sa b a hna (le_of_lt hsw) hsb hsa hres]
    ring
  · rw [if_neg hsw] at hres ⊢
    dsimp only at hres ⊢
    exact alignedSum_val sa sb a b hnb (by omega) hsa hsb hres

/-- C9 counterexample: the claim's unconditional "the returned value
equals the exact mathematical sum" fails at the concrete unequal-exponent
normal operands `2^(kMaxExp-1)` and `3·2^(kMaxExp-2)`: their exact sum
overflows the exponent range and the returned value is `+∞`, not a
(normal) finite value. -/
theorem c9_overflow_counterexample :
    (⟨1, kMaxExp - 1, 1⟩ : ExactFloat).wf ∧
      (⟨1, kMaxExp - 2, 3⟩ : ExactFloat).wf ∧
      (⟨1, kMaxExp - 1, 1⟩ : ExactFloat).bn_exp_ ≠
        (⟨1, kMaxExp - 2, 3⟩ : ExactFloat).bn_exp_ ∧
      (add ⟨1, kMaxExp - 1, 1⟩ ⟨1, kMaxExp - 2, 3⟩).is_inf ∧
      ¬ (add ⟨1, kMaxExp - 1, 1⟩ ⟨1, kMaxExp - 2, 3⟩).is_normal := by
  decide

/-- C9 (amended): for normal operands with valid signs and unequal
exponents, addition and subtraction align the larger-`bn_exp_` operand's
mantissa by a left shift down to the smaller exponent, add or subtract
the aligned mantissas, and resolve the sign from the difference's sign
and the operand signs; whenever the result is normal (no exponent or
precision overflow/underflow), it equals the exact mathematical sum or
difference. -/
theorem c9_signed_sum_exact (a b : ExactFloat)
    (hsa : a.sign_ = 1 ∨ a.sign_ = -1) (hsb : b.sign_ = 1 ∨ b.sign_ = -1)
    (hna : a.is_normal) (hnb : b.is_normal) (hne : a.bn_exp_ ≠ b.bn_exp_) :
    ((add a b).is_normal → val (add a b) = val a + val b) ∧
      ((sub a b).is_normal → val (sub a b) = val a - val b) := by
  constructor
  · intro hres
    rw [show add a b = signedSum a.sign_ a b.sign_ b from rfl] at hres ⊢
    rw [signedSum_val _ _ _ _ hna hnb hsa hsb hres, val_normal hna,
      val_normal hnb]
  · intro hres
    rw [show sub a b = signedSum a.sign_ a (-b.sign_) b from rfl] at hres ⊢
    rw [signedSum_val _ _ _ _ hna hnb hsa (by omega) hres, val_normal hna,
      val_normal hnb]
    push_cast
    ring

/-- Witness for C9 at the concrete operands `6 = 3·2^1` and `1 = 1·2^0`:
the sum is `7` and the difference is `5`, exactly. -/
theorem c9_signed_sum_exact_witness :
    (add ⟨1, 1, 3⟩ ⟨1, 0, 1⟩).is_normal ∧
      val (add ⟨1, 1, 3⟩ ⟨1, 0, 1⟩) = val ⟨1, 1, 3⟩ + val ⟨1, 0, 1⟩ ∧
      (sub ⟨1, 1, 3⟩ ⟨1, 0, 1⟩).is_normal ∧
      val (sub ⟨1, 1, 3⟩ ⟨1, 0, 1⟩) = val ⟨1, 1, 3⟩ - val ⟨1, 0, 1⟩ :=
  ⟨by decide,
    (c9_signed_sum_exact ⟨1, 1, 3⟩ ⟨1, 0, 1⟩ (by decide) (by decide) (by decide)
      (by decide) (by decide)).1 (by decide),
    by decide,
    (c9_signed_sum_exact ⟨1, 1, 3⟩ ⟨1, 0, 1⟩ (by decide) (by decide) (by decide)
      (by decide) (by decide)).2 (by decide)⟩

end ExactFloat

namespace ExactFloat

/-- The magnitude of a normal value lies in `[2^(exp-1), 2^exp)`. -/
theorem mag_sandwich (m : Nat) (e : Int) (hm : m ≠ 0) :
    (2 : ℚ) ^ (e + (bitlen m : Int) - 1) ≤ (m : ℚ) * (2 : ℚ) ^ e ∧
      (m : ℚ) * (2 : ℚ) ^ e < (2 : ℚ) ^ (e + (bitlen m : Int)) := by
  obtain ⟨h1, h2⟩ := bitlen_sandwich hm
  have hb1 : 1 ≤ bitlen m := lt_bitlen.mpr (by simpa using Nat.pos_iff_ne_zero.mpr hm)
  have hzp : (0 : ℚ) < (2 : ℚ) ^ e := zpow_pos (by norm_num) e
  constructor
  · have hc : ((2 : ℚ) ^ (bitlen m - 1 : Nat)) ≤ (m : ℚ) := by
      exact_mod_cast h1
    calc (2 : ℚ) ^ (e + (bitlen m : Int) - 1)
        = (2 : ℚ) ^ (((bitlen m - 1 : Nat) : Int)) * (2 : ℚ) ^ e := by
          rw [← zpow_add₀ (two_ne_zero)]
          congr 1
          omega
      _ = ((2 : ℚ) ^ (bitlen m - 1 : Nat)) * (2 : ℚ) ^ e := by
          rw [zpow_natCast]
      _ ≤ (m : ℚ) * (2 : ℚ) ^ e := mul_le_mul_of_nonneg_right hc (le_of_lt hzp)
  · have hc : (m : ℚ) < (2 : ℚ) ^ (bitlen m : Nat) := by
      exact_mod_cast h2
    calc (m : ℚ) * (2 : ℚ) ^ e
        < ((2 : ℚ) ^ (bitlen m : Nat)) * (2 : ℚ) ^ e :=
          mul_lt_mul_of_pos_right hc hzp
      _ = (2 : ℚ) ^ (((bitlen m : Nat) : Int)) * (2 : ℚ) ^ e := by
          rw [zpow_natCast]
      _ = (2 : ℚ) ^ (e + (bitlen m : Int)) := by
          rw [← zpow_add₀ (two_ne_zero)]
          congr 1
          omega

/-- Monotonicity of magnitude in the leading-bit exponent. -/
theorem mag_lt_of_exp_lt {a b : ExactFloat} (hma : a.bn_ ≠ 0) (hmb : b.bn_ ≠ 0)
    (h : a.exp' < b.exp') :
    (a.bn_ : ℚ) * (2 : ℚ) ^ a.bn_exp_ < (b.bn_ : ℚ) * (2 : ℚ) ^ b.bn_exp_ := by
  obtain ⟨-, ha2⟩ := mag_sandwich a.bn_ a.bn_exp_ hma
  obtain ⟨hb1, -⟩ := mag_sandwich b.bn_ b.bn_exp_ hmb
  calc (a.bn_ : ℚ) * (2 : ℚ) ^ a.bn_exp_
      < (2 : ℚ) ^ (a.bn_exp_ + (bitlen a.bn_ : Int)) := ha2
    _ ≤ (2 : ℚ) ^ (b.bn_exp_ + (bitlen b.bn_ : Int) - 1) := by
        refine zpow_le_zpow_right₀ (by norm_num) ?_
        unfold exp' at h
        omega
    _ ≤ (b.bn_ : ℚ) * (2 : ℚ) ^ b.bn_exp_ := hb1

end ExactFloat

namespace ExactFloat

/-- Comparing the left-shifted mantissa of the larger-exponent operand
against the other mantissa decides the magnitude order exactly
(`ScaleAndCompare`'s correctness). -/
theorem shifted_cmp_iff {a b : ExactFloat} (hge : b.bn_exp_ ≤ a.bn_exp_) :
    ((a.bn_ <<< (a.bn_exp_ - b.bn_exp_).toNat : Nat) < b.bn_ ↔
        (a.bn_ : ℚ) * (2 : ℚ) ^ a.bn_exp_ < (b.bn_ : ℚ) * (2 : ℚ) ^ b.bn_exp_) ∧
      (b.bn_ < (a.bn_ <<< (a.bn_exp_ - b.bn_exp_).toNat : Nat) ↔
        (b.bn_ : ℚ) * (2 : ℚ) ^ b.bn_exp_ < (a.bn_ : ℚ) * (2 : ℚ) ^ a.bn_exp_) ∧
      ((a.bn_ <<< (a.bn_exp_ - b.bn_exp_).toNat : Nat) = b.bn_ ↔
        (a.bn_ : ℚ) * (2 : ℚ) ^ a.bn_exp_ = (b.bn_ : ℚ) * (2 : ℚ) ^ b.bn_exp_) := by
  have hsh : ((a.bn_ <<< (a.bn_exp_ - b.bn_exp_).toNat : Nat) : ℚ) *
      (2 : ℚ) ^ b.bn_exp_ = (a.bn_ : ℚ) * (2 : ℚ) ^ a.bn_exp_ := by
    rw [shift_val,
      show b.bn_exp_ + (((a.bn_exp_ - b.bn_exp_).toNat : Nat) : Int) = a.bn_exp_
        by omega]
  have hzp : (0 : ℚ) < (2 : ℚ) ^ b.bn_exp_ := zpow_pos (by norm_num) _
  refine ⟨?_, ?_, ?_⟩
  · rw [← hsh]
    rw [show ((a.bn_ <<< (a.bn_exp_ - b.bn_exp_).toNat : Nat) < b.bn_) ↔
        (((a.bn_ <<< (a.bn_exp_ - b.bn_exp_).toNat : Nat) : ℚ) < (b.bn_ : ℚ))
      from (Nat.cast_lt).symm]
    exact (mul_lt_mul_right hzp).symm
  · rw [← hsh]
    rw [show (b.bn_ < (a.bn_ <<< (a.bn_exp_ - b.bn_exp_).toNat : Nat)) ↔
        ((b.bn_ : ℚ) < ((a.bn_ <<< (a.bn_exp_ - b.bn_exp_).toNat : Nat) : ℚ))
      from (Nat.cast_lt).symm]
    exact (mul_lt_mul_right hzp).symm
  · rw [← hsh]
    rw [show ((a.bn_ <<< (a.bn_exp_ - b.bn_exp_).toNat : Nat) = b.bn_) ↔
        (((a.bn_ <<< (a.bn_exp_ - b.bn_exp_).toNat : Nat) : ℚ) = (b.bn_ : ℚ))
      from (Nat.cast_inj).symm]
    exact (mul_left_inj' (ne_of_gt hzp)).symm

/-- `UnsignedLess` decides strict magnitude order on normal values. -/
theorem unsignedLess_correct {a b : ExactFloat} (hna : a.is_normal)
    (hnb : b.is_normal) (hma : a.bn_ ≠ 0) (hmb : b.bn_ ≠ 0) :
    (unsignedLess a b = true) ↔
      (a.bn_ : ℚ) * (2 : ℚ) ^ a.bn_exp_ < (b.bn_ : ℚ) * (2 : ℚ) ^ b.bn_exp_ := by
  have hk := kExp_lt
  unfold is_normal at hna hnb
  have hnia : ¬ a.is_inf := by unfold is_inf; omega
  have hnib : ¬ b.is_inf := by unfold is_inf; omega
  have hnza : ¬ a.is_zero := by unfold is_zero; omega
  have hnzb : ¬ b.is_zero := by unfold is_zero; omega
  unfold unsignedLess
  rw [if_neg (by tauto), if_neg (by tauto)]
  by_cases hexp : a.exp' - b.exp' ≠ 0
  · rw [if_pos hexp]
    simp only [decide_eq_true_eq]
    rcases lt_trichotomy a.exp' b.exp' with hlt | heq | hgt
    · have hmag := mag_lt_of_exp_lt hma hmb hlt
      constructor
      · intro _
        exact hmag
      · intro _
        omega
    · omega
    · have hmag := mag_lt_of_exp_lt hmb hma hgt
      constructor
      · intro h
        omega
      · intro h
        linarith
  · rw [if_neg hexp]
    by_cases hbe : a.bn_exp_ ≥ b.bn_exp_
    · rw [if_pos hbe]
      obtain ⟨k1, k2, k3⟩ := @shifted_cmp_iff a b (by omega)
      simp only [decide_eq_true_eq]
      unfold scaleAndCompare
      dsimp only
      split_ifs with h1 h2
      · exact ⟨fun _ => k1.mp h1, fun _ => by decide⟩
      · exact ⟨fun h => absurd h (by decide),
          fun h => absurd (k3.mp h2) (ne_of_lt h)⟩
      · exact ⟨fun h => absurd h (by decide), fun h => absurd (k1.mpr h) h1⟩
    · rw [if_neg hbe]
      obtain ⟨k1, k2, k3⟩ := @shifted_cmp_iff b a (by omega)
      simp only [decide_eq_true_eq]
      unfold scaleAndCompare
      dsimp only
      split_ifs with h1 h2
      · exact ⟨fun h => absurd h (by decide),
          fun h => absurd h (lt_asymm (k1.mp h1))⟩
      · exact ⟨fun h => absurd h (by decide),
          fun h => absurd (k3.mp h2).symm (ne_of_lt h)⟩
      · exact ⟨fun _ => k2.mp (by omega), fun _ => by decide⟩

end ExactFloat

namespace ExactFloat

/-- A well-formed normal value with positive sign has positive value. -/
theorem val_pos {x : ExactFloat} (hw : x.wf) (hn : x.is_normal)
    (hs : x.sign_ = 1) : 0 < val x := by
  rw [val_normal hn, hs]
  have hodd := (hw.2.1 hn).1
  have h1 : (1 : ℚ) ≤ (x.bn_ : ℚ) := by
    exact_mod_cast (show 1 ≤ x.bn_ by omega)
  have h2 := zpow_pos (show (0 : ℚ) < 2 by norm_num) x.bn_exp_
  push_cast
  nlinarith

/-- A well-formed normal value with negative sign has negative value. -/
theorem val_neg {x : ExactFloat} (hw : x.wf) (hn : x.is_normal)
    (hs : x.sign_ = -1) : val x < 0 := by
  rw [val_normal hn, hs]
  have hodd := (hw.2.1 hn).1
  have h1 : (1 : ℚ) ≤ (x.bn_ : ℚ) := by
    exact_mod_cast (show 1 ≤ x.bn_ by omega)
  have h2 := zpow_pos (show (0 : ℚ) < 2 by norm_num) x.bn_exp_
  push_cast
  nlinarith

/-- A well-formed normal value is never zero. -/
theorem val_ne_zero {x : ExactFloat} (hw : x.wf) (hn : x.is_normal) :
    val x ≠ 0 := by
  rcases hw.1 with hs | hs
  · exact ne_of_gt (val_pos hw hn hs)
  · exact ne_of_lt (val_neg hw hn hs)

/-- For finite well-formed values, `operator==` decides equality of the
represented rationals. -/
theorem efEq_correct {a b : ExactFloat} (ha : a.wf) (hb : b.wf)
    (hfa : a.is_normal ∨ a.is_zero) (hfb : b.is_normal ∨ b.is_zero) :
    (efEq a b = true) ↔ val a = val b := by
  have hk := kExp_lt
  have hfa' : a.bn_exp_ < kExpZero ∨ a.bn_exp_ = kExpZero := hfa
  have hfb' : b.bn_exp_ < kExpZero ∨ b.bn_exp_ = kExpZero := hfb
  unfold efEq
  rw [if_neg (show ¬ (a.is_nan ∨ b.is_nan) by unfold is_nan; omega)]
  rcases hfa' with hA | hA <;> rcases hfb' with hB | hB
  · -- both normal
    by_cases hee : a.bn_exp_ = b.bn_exp_
    · rw [if_neg (by omega), if_neg (show ¬ (a.is_zero ∧ b.is_zero) by
        unfold is_zero; omega)]
      simp only [Bool.and_eq_true, decide_eq_true_eq]
      constructor
      · rintro ⟨hs, hm⟩
        rw [val_normal hA, val_normal hB, hs, hm, hee]
      · intro hv
        have he := normal_val_inj ha hb hA hB hv
        exact ⟨congrArg sign_ he, congrArg bn_ he⟩
    · rw [if_pos hee]
      simp only [Bool.false_eq_true, false_iff]
      intro hv
      exact hee (congrArg bn_exp_ (normal_val_inj ha hb hA hB hv))
  · -- a normal, b zero
    rw [if_pos (show a.bn_exp_ ≠ b.bn_exp_ by omega)]
    simp only [Bool.false_eq_true, false_iff]
    rw [val_not_normal (show ¬ b.is_normal by unfold is_normal; omega)]
    exact val_ne_zero ha hA
  · -- a zero, b normal
    rw [if_pos (show a.bn_exp_ ≠ b.bn_exp_ by omega)]
    simp only [Bool.false_eq_true, false_iff]
    rw [val_not_normal (show ¬ a.is_normal by unfold is_normal; omega)]
    intro hv
    exact val_ne_zero hb hB hv.symm
  · -- both zero
    rw [if_neg (by omega), if_pos (show a.is_zero ∧ b.is_zero from ⟨hA, hB⟩),
      val_not_normal (show ¬ a.is_normal by unfold is_normal; omega),
      val_not_normal (show ¬ b.is_normal by unfold is_normal; omega)]
    simp

/-- For finite well-formed values, `operator<` decides the strict order of
the represented rationals. -/
theorem efLt_correct {a b : ExactFloat} (ha : a.wf) (hb : b.wf)
    (hfa : a.is_normal ∨ a.is_zero) (hfb : b.is_normal ∨ b.is_zero) :
    (efLt a b = true) ↔ val a < val b := by
  have hk := kExp_lt
  have hfa' : a.bn_exp_ < kExpZero ∨ a.bn_exp_ = kExpZero := hfa
  have hfb' : b.bn_exp_ < kExpZero ∨ b.bn_exp_ = kExpZero := hfb
  unfold efLt
  rw [if_neg (show ¬ (a.is_nan ∨ b.is_nan) by unfold is_nan; omega)]
  rcases hfa' with hA | hA <;> rcases hfb' with hB | hB
  · -- both normal
    rw [if_neg (show ¬ (a.is_zero ∧ b.is_zero) by unfold is_zero; omega)]
    have hman : a.bn_ ≠ 0 := by have := (ha.2.1 hA).1; omega
    have hmbn : b.bn_ ≠ 0 := by have := (hb.2.1 hB).1; omega
    rcases ha.1 with hsa | hsa <;> rcases hb.1 with hsb | hsb
    · rw [if_neg (by omega), if_pos (by omega),
        unsignedLess_correct hA hB hman hmbn, val_normal hA, val_normal hB,
        hsa, hsb]
      push_cast
      rw [one_mul, one_mul]
    · rw [if_pos (by omega)]
      simp only [decide_eq_true_eq]
      constructor
      · intro h
        exact absurd h (by omega)
      · intro h
        have h1 := val_pos ha hA hsa
        have h2 := val_neg hb hB hsb
        linarith
    · rw [if_pos (by omega)]
      simp only [decide_eq_true_eq]
      constructor
      · intro _
        have h1 := val_neg ha hA hsa
        have h2 := val_pos hb hB hsb
        linarith
      · intro _
        omega
    · rw [if_neg (by omega), if_neg (by omega),
        unsignedLess_correct hB hA hmbn hman, val_normal hA, val_normal hB,
        hsa, hsb]
      push_cast
      constructor <;> intro h <;> nlinarith
  · -- a normal, b zero
    rw [if_neg (show ¬ (a.is_zero ∧ b.is_zero) by unfold is_zero; omega),
      val_not_normal (show ¬ b.is_normal by unfold is_normal; omega)]
    have hnin : ¬ a.is_inf := by unfold is_inf; omega
    rcases ha.1 with hsa | hsa <;> rcases hb.1 with hsb | hsb
    · rw [if_neg (by omega), if_pos (by omega)]
      unfold unsignedLess
      rw [if_pos (Or.inr (show b.is_zero from hB))]
      simp only [Bool.false_eq_true, false_iff]
      have h1 := val_pos ha hA hsa
      linarith
    · rw [if_pos (by omega)]
      simp only [decide_eq_true_eq]
      constructor
      · intro h
        exact absurd h (by omega)
      · intro h
        have h1 := val_pos ha hA hsa
        linarith
    · rw [if_pos (by omega)]
      simp only [decide_eq_true_eq]
      constructor
      · intro _
        exact val_neg ha hA hsa
      · intro _
        omega
    · rw [if_neg (by omega), if_neg (by omega)]
      unfold unsignedLess
      rw [if_neg (show ¬ (b.is_inf ∨ a.is_zero) by
          unfold is_inf is_zero; omega),
        if_pos (Or.inl (show b.is_zero from hB))]
      simp only [true_iff]
      exact val_neg ha hA hsa
  · -- a zero, b normal
    rw [if_neg (show ¬ (a.is_zero ∧ b.is_zero) by unfold is_zero; omega),
      val_not_normal (show ¬ a.is_normal by unfold is_normal; omega)]
    rcases ha.1 with hsa | hsa <;> rcases hb.1 with hsb | hsb
    · rw [if_neg (by omega), if_pos (by omega)]
      unfold unsignedLess
      rw [if_neg (show ¬ (a.is_inf ∨ b.is_zero) by
          unfold is_inf is_zero; omega),
        if_pos (Or.inl (show a.is_zero from hA))]
      simp only [true_iff]
      exact val_pos hb hB hsb
    · rw [if_pos (by omega)]
      simp only [decide_eq_true_eq]
      constructor
      · intro h
        exact absurd h (by omega)
      · intro h
        have h1 := val_neg hb hB hsb
        linarith
    · rw [if_pos (by omega)]
      simp only [decide_eq_true_eq]
      constructor
      · intro _
        exact val_pos hb hB hsb
      · intro _
        omega
    · rw [if_neg (by omega), if_neg (by omega)]
      unfold unsignedLess
      rw [if_pos (Or.inr (show a.is_zero from hA))]
      simp only [Bool.false_eq_true, false_iff]
      have h1 := val_neg hb hB hsb
      linarith
  · -- both zero
    rw [if_pos (show a.is_zero ∧ b.is_zero from ⟨hA, hB⟩),
      val_not_normal (show ¬ a.is_normal by unfold is_normal; omega),
      val_not_normal (show ¬ b.is_normal by unfold is_normal; omega)]
    simp

end ExactFloat

namespace ExactFloat

/-- **C7.** The comparison operators satisfy: (i) for every value `x` and
NaN `n`, `n == x`, `x == n`, `n < x` and `x < n` are all false, so NaN is
unordered even against itself; (ii) the two signed zeros compare equal
regardless of sign and neither is less than the other; (iii) for all
finite well-formed pairs, `==` and `<` agree with equality and strict
order of the represented rational values. -/
theorem c7_comparisons :
    (∀ x n : ExactFloat, n.is_nan →
        efEq n x = false ∧ efEq x n = false ∧
          efLt n x = false ∧ efLt x n = false) ∧
      (∀ s t : Int, efEq (mkZero s) (mkZero t) = true ∧
          efLt (mkZero s) (mkZero t) = false) ∧
      (∀ a b : ExactFloat, a.wf → b.wf →
          (a.is_normal ∨ a.is_zero) → (b.is_normal ∨ b.is_zero) →
          ((efEq a b = true ↔ val a = val b) ∧
            (efLt a b = true ↔ val a < val b))) := by
  refine ⟨?_, ?_, ?_⟩
  · intro x n hn
    refine ⟨?_, ?_, ?_, ?_⟩
    · unfold efEq
      rw [if_pos (Or.inl hn)]
    · unfold efEq
      rw [if_pos (Or.inr hn)]
    · unfold efLt
      rw [if_pos (Or.inl hn)]
    · unfold efLt
      rw [if_pos (Or.inr hn)]
  · intro s t
    have hk := kExp_lt
    constructor
    · unfold efEq
      rw [if_neg (show ¬ ((mkZero s).is_nan ∨ (mkZero t).is_nan) by
          unfold is_nan mkZero; dsimp only; omega),
        if_neg (show ¬ (mkZero s).bn_exp_ ≠ (mkZero t).bn_exp_ by
          unfold mkZero; dsimp only; omega),
        if_pos ⟨mkZero_is_zero s, mkZero_is_zero t⟩]
    · unfold efLt
      rw [if_neg (show ¬ ((mkZero s).is_nan ∨ (mkZero t).is_nan) by
          unfold is_nan mkZero; dsimp only; omega),
        if_pos ⟨mkZero_is_zero s, mkZero_is_zero t⟩]
  · intro a b ha hb hfa hfb
    exact ⟨efEq_correct ha hb hfa hfb, efLt_correct ha hb hfa hfb⟩

/-- Witness for C7 at concrete inputs: `2` and `3` are finite and
well-formed, and the order claim instantiated there yields `2 < 3`. -/
theorem c7_comparisons_witness :
    ((ofInt 2).wf ∧ (ofInt 3).wf ∧
        ((ofInt 2).is_normal ∨ (ofInt 2).is_zero) ∧
        ((ofInt 3).is_normal ∨ (ofInt 3).is_zero)) ∧
      ((efEq (ofInt 2) (ofInt 3) = true ↔ val (ofInt 2) = val (ofInt 3)) ∧
        (efLt (ofInt 2) (ofInt 3) = true ↔ val (ofInt 2) < val (ofInt 3))) :=
  ⟨⟨by decide, by decide, by decide, by decide⟩,
    c7_comparisons.2.2 (ofInt 2) (ofInt 3) (by decide) (by decide)
      (by decide) (by decide)⟩

end ExactFloat

namespace ExactFloat

/-- `ToDouble` on a normal value whose precision already fits in 53 bits
is `ldexp` of the mantissa by the stored exponent. -/
theorem toDouble_normal_small (s eo : Int) (u : Nat)
    (hp : ((bitlen u : Nat) : Int) ≤ kDoubleMantissaBits) (hno : eo < kExpZero) :
    toDouble ⟨s, eo, u⟩ = ldexpDouble (decide (s < 0)) u eo := by
  unfold toDouble
  rw [if_pos (show (⟨s, eo, u⟩ : ExactFloat).prec ≤ kDoubleMantissaBits from hp)]
  unfold toDoubleHelper
  rw [if_neg (not_not_intro (show (⟨s, eo, u⟩ : ExactFloat).is_normal from hno))]

/-- **C1 counterexample.** A negative NaN does not survive the round trip:
`set_nan()` forces the sign to `+1`, so the sign bit of a NaN input is
lost. -/
theorem c1_nan_counterexample :
    toDouble (ofDouble (FpDouble.nan true)) = FpDouble.nan false ∧
      FpDouble.nan false ≠ FpDouble.nan true :=
  ⟨by decide, by decide⟩

/-- **C1** (amended). For every valid double other than a NaN — including
negative zero, denormals and the infinities — converting to `ExactFloat`
and back returns the identical double. -/
theorem c1_round_trip (d : FpDouble) (hv : validDouble d)
    (hn : ∀ s, d ≠ FpDouble.nan s) : toDouble (ofDouble d) = d := by
  cases d with
  | nan s => exact absurd rfl (hn s)
  | inf neg => cases neg <;> decide
  | finite neg m e =>
    simp only [validDouble] at hv
    by_cases hm : m = 0
    · subst hm
      have he : e = -1074 := by
        rcases hv with ⟨h1, -⟩ | ⟨-, -, h3, -⟩
        · exact h1
        · exact absurd h3 (by decide)
      subst he
      cases neg <;> decide
    · have hk := kExp_lt
      have hconsts : (1024 : Int) ≤ kMaxExp ∧ kMinExp ≤ (-1128 : Int) ∧
          (53 : Int) ≤ kMaxPrec ∧ kDoubleMantissaBits = (53 : Int) := by
        refine ⟨?_, ?_, ?_, ?_⟩ <;> decide
      have hm53 : m < 2 ^ 53 := by
        rcases hv with ⟨-, h2⟩ | ⟨-, -, -, h4⟩
        · calc m < 2 ^ 52 := h2
            _ < 2 ^ 53 := by norm_num
        · exact h4
      have helo : -1074 ≤ e := by
        rcases hv with ⟨h1, -⟩ | ⟨h1, -⟩ <;> omega
      have hehi : e ≤ 971 := by
        rcases hv with ⟨h1, -⟩ | ⟨-, h2, -⟩ <;> omega
      have hL1 : 1 ≤ bitlen m :=
        lt_bitlen.mpr (by simpa using Nat.pos_iff_ne_zero.mpr hm)
      have hL53 : bitlen m ≤ 53 := bitlen_le.mpr hm53
      have hq : max (e + (bitlen m : Int) - 53) (-1074) = e := by
        rcases hv with ⟨h1, h2⟩ | ⟨-, -, h3, -⟩
        · have := bitlen_le.mpr h2
          omega
        · have := lt_bitlen.mpr h3
          omega
      obtain ⟨huodd, huspec⟩ := ctz_spec hm
      have hcL : ctz m < bitlen m := by
        have := ctz_le_bitlen hm
        omega
      have hbn0 : m <<< (53 - bitlen m) ≠ 0 := by
        rw [Nat.shiftLeft_eq]
        exact Nat.mul_ne_zero hm (Nat.two_pow_pos _).ne'
      have hbl : bitlen (m <<< (53 - bitlen m)) = 53 := by
        rw [bitlen_shiftLeft _ hm]
        omega
      have hbneq : m <<< (53 - bitlen m) =
          (m >>> ctz m) * 2 ^ (ctz m + (53 - bitlen m)) := by
        rw [Nat.shiftLeft_eq, pow_add, ← Nat.mul_assoc, huspec]
      have hctzbn : ctz (m <<< (53 - bitlen m)) = ctz m + (53 - bitlen m) :=
        ctz_eq_of_odd_factor huodd hbneq
      have hsr : (m <<< (53 - bitlen m)) >>> ctz (m <<< (53 - bitlen m)) =
          m >>> ctz m := by
        obtain ⟨hbodd, hbspec⟩ := ctz_spec hbn0
        exact (odd_factor_unique hbodd huodd
          (show (m <<< (53 - bitlen m)) >>> ctz (m <<< (53 - bitlen m)) *
              2 ^ ctz (m <<< (53 - bitlen m)) =
            (m >>> ctz m) * 2 ^ (ctz m + (53 - bitlen m))
            from by rw [hbspec, hbneq])).1
      have hbu : bitlen (m >>> ctz m) = bitlen m - ctz m :=
        bitlen_shiftRight_ctz hm
      have hu0 : m >>> ctz m ≠ 0 := by omega
      have hofd : ofDouble (FpDouble.finite neg m e) =
          ⟨if neg then -1 else 1, e + (ctz m : Int), m >>> ctz m⟩ := by
        show canonicalize ⟨if neg then -1 else 1, e + (bitlen m : Int) - 53,
            m <<< (53 - bitlen m)⟩ = _
        rw [canonicalize_mk_eq _ _ _ (by omega), hbl, hsr, hctzbn]
        rw [if_neg (by push_neg; exact ⟨by omega, hbn0⟩), if_neg (by omega),
          if_neg (by push_neg; omega)]
        rw [show e + (bitlen m : Int) - 53 +
            ((ctz m + (53 - bitlen m) : Nat) : Int) = e + (ctz m : Int)
          by omega]
      rw [hofd, toDouble_normal_small _ _ _ (by omega) (by omega)]
      unfold ldexpDouble
      rw [if_neg hu0]
      dsimp only
      rw [hbu,
        show e + (ctz m : Int) + ((bitlen m - ctz m : Nat) : Int) - 53 =
          e + (bitlen m : Int) - 53 by omega,
        hq, if_pos (show e + (ctz m : Int) ≥ e by omega),
        if_neg (show ¬ e > 971 by omega),
        show (e + (ctz m : Int) - e).toNat = ctz m by omega,
        show (m >>> ctz m) <<< ctz m = m by rw [Nat.shiftLeft_eq]; exact huspec]
      cases neg <;> simp

/-- Witness for C1 at a concrete denormal input: `-3 * 2^-1074` is a valid
non-NaN double and round trips exactly. -/
theorem c1_round_trip_witness :
    (validDouble (FpDouble.finite true 3 (-1074)) ∧
        (∀ s, FpDouble.finite true 3 (-1074) ≠ FpDouble.nan s)) ∧
      toDouble (ofDouble (FpDouble.finite true 3 (-1074))) =
        FpDouble.finite true 3 (-1074) :=
  ⟨⟨by decide, fun s h => FpDouble.noConfusion h⟩,
    c1_round_trip (FpDouble.finite true 3 (-1074)) (by decide)
      (fun s h => FpDouble.noConfusion h)⟩

end ExactFloat

namespace ExactFloat

/-- **C8** (divergence). For the value `26` with one significant digit
requested, the single discarded digit is `6`: the discarded fraction
`0.6` strictly exceeds one half, so the claimed rounding must increment
the kept string `"2"` to `"3"` (giving `0.3e2 = 30`).  The code's
increment condition additionally requires the lowest kept digit to be odd
or a nonzero digit strictly after the first discarded one, so it keeps
`"2"` (giving `0.2e2 = 20`): `GetDecimalDigits` does not implement
round-half-to-even. -/
theorem c8_decimal_rounding_bug :
    getDecimalDigits (ofInt 26) 1 = ([2], 2) ∧
      codeIncrementTest (natDigits 26) 1 = false ∧
      specIncrementTest (natDigits 26) 1 = true :=
  ⟨by decide, by decide, by decide⟩

end ExactFloat

/-! ### Lemmas for the sign-predicate cascade -/

/-- The point key is injective: distinct points have distinct keys. -/
theorem ptKey_inj {p q : Pt} (h : ptKey p = ptKey q) : p = q := by
  obtain ⟨x, y, z⟩ := p
  obtain ⟨x', y', z'⟩ := q
  unfold ptKey at h
  have h1 := toLex.injective h
  rw [Prod.mk.injEq] at h1
  have h2 := toLex.injective h1.2
  rw [Prod.mk.injEq] at h2
  simp only [Pt.mk.injEq]
  exact ⟨h1.1, h2.1, h2.2⟩

instance : IsTotal Pt ptLe := ⟨fun p q => le_total (ptKey p) (ptKey q)⟩

instance : IsTrans Pt ptLe :=
  ⟨fun _ _ _ h1 h2 => le_trans (α := ℚ ×ₗ (ℚ ×ₗ ℚ)) h1 h2⟩

instance : IsAntisymm Pt ptLe :=
  ⟨fun _ _ h1 h2 => ptKey_inj (le_antisymm h1 h2)⟩

/-- Sorting is invariant under permuting the three inputs. -/
theorem sortPts_perm {a b c a' b' c' : Pt}
    (hp : List.Perm [a, b, c] [a', b', c']) :
    sortPts a b c = sortPts a' b' c' := by
  unfold sortPts
  refine List.eq_of_perm_of_sorted ?_ (List.sorted_insertionSort _ _)
    (List.sorted_insertionSort _ _)
  exact (List.perm_insertionSort _ _).trans
    (hp.trans (List.perm_insertionSort _ _).symm)

/-- The sorted list always has exactly three entries. -/
theorem sortPts_shape (a b c : Pt) : ∃ p q r, sortPts a b c = [p, q, r] := by
  have hlen : (sortPts a b c).length = 3 := by
    unfold sortPts
    rw [(List.perm_insertionSort _ _).length_eq]
    rfl
  exact List.length_eq_three.mp hlen

/-- Antisymmetry of the determinant under each transposition of rows. -/
theorem det3_swaps (a b c : Pt) : det3 b a c = -det3 a b c ∧
    det3 a c b = -det3 a b c ∧ det3 c b a = -det3 a b c := by
  unfold det3
  refine ⟨by ring, by ring, by ring⟩

/-- One comparison factor of `parity3` flips under reversal when the two
keys differ. -/
theorem parityFactor_flip {x y : ℚ ×ₗ (ℚ ×ₗ ℚ)} (h : x ≠ y) :
    (if y ≤ x then (1 : Int) else -1) = -(if x ≤ y then (1 : Int) else -1) := by
  by_cases h1 : x ≤ y
  · rw [if_pos h1, if_neg (fun h2 => h (le_antisymm h1 h2))]
  · rw [if_pos (le_of_not_le h1), if_neg h1]
    norm_num

/-- The permutation parity flips under the transposition of the first two
arguments (distinct keys). -/
theorem parity3_swap₁ {a b c : Pt} (h : ptKey a ≠ ptKey b) :
    parity3 b a c = -parity3 a b c := by
  unfold parity3
  rw [parityFactor_flip h]
  ring

/-- The permutation parity flips under the transposition of the last two
arguments (distinct keys). -/
theorem parity3_swap₂ {a b c : Pt} (h : ptKey b ≠ ptKey c) :
    parity3 a c b = -parity3 a b c := by
  unfold parity3
  rw [parityFactor_flip h]
  ring

/-- The permutation parity flips under the transposition of the outer two
arguments (pairwise distinct keys). -/
theorem parity3_swap₃ {a b c : Pt} (hab : ptKey a ≠ ptKey b)
    (hac : ptKey a ≠ ptKey c) (hbc : ptKey b ≠ ptKey c) :
    parity3 c b a = -parity3 a b c := by
  unfold parity3
  rw [parityFactor_flip hbc, parityFactor_flip hac, parityFactor_flip hab]
  ring

/-- The symbolic tie-break flips sign when the first two arguments are
transposed. -/
theorem sps_swap₁ (a b c : Pt) :
    symbolicallyPerturbedSign b a c = -symbolicallyPerturbedSign a b c := by
  unfold symbolicallyPerturbedSign
  by_cases hd : a = b ∨ a = c ∨ b = c
  · rw [if_pos hd, if_pos (by tauto)]
    rfl
  · push_neg at hd
    obtain ⟨hab, hac, hbc⟩ := hd
    rw [if_neg (by rintro (h | h | h); exacts [hab h.symm, hbc h, hac h]),
      if_neg (by rintro (h | h | h); exacts [hab h, hac h, hbc h])]
    obtain ⟨p, q, r, hs⟩ := sortPts_shape a b c
    rw [sortPts_perm (List.Perm.swap a b [c]), hs]
    show parity3 b a c * symbolicBase p q r =
      -(parity3 a b c * symbolicBase p q r)
    rw [parity3_swap₁ (fun h => hab (ptKey_inj h))]
    ring

/-- The symbolic tie-break flips sign when the last two arguments are
transposed. -/
theorem sps_swap₂ (a b c : Pt) :
    symbolicallyPerturbedSign a c b = -symbolicallyPerturbedSign a b c := by
  unfold symbolicallyPerturbedSign
  by_cases hd : a = b ∨ a = c ∨ b = c
  · rw [if_pos hd, if_pos (by tauto)]
    rfl
  · push_neg at hd
    obtain ⟨hab, hac, hbc⟩ := hd
    rw [if_neg (by rintro (h | h | h); exacts [hac h, hab h, hbc h.symm]),
      if_neg (by rintro (h | h | h); exacts [hab h, hac h, hbc h])]
    obtain ⟨p, q, r, hs⟩ := sortPts_shape a b c
    rw [sortPts_perm (List.Perm.cons a (List.Perm.swap b c [])), hs]
    show parity3 a c b * symbolicBase p q r =
      -(parity3 a b c * symbolicBase p q r)
    rw [parity3_swap₂ (fun h => hbc (ptKey_inj h))]
    ring

/-- The symbolic tie-break flips sign when the outer two arguments are
transposed. -/
theorem sps_swap₃ (a b c : Pt) :
    symbolicallyPerturbedSign c b a = -symbolicallyPerturbedSign a b c := by
  unfold symbolicallyPerturbedSign
  by_cases hd : a = b ∨ a = c ∨ b = c
  · rw [if_pos hd, if_pos (by tauto)]
    rfl
  · push_neg at hd
    obtain ⟨hab, hac, hbc⟩ := hd
    rw [if_neg (by rintro (h | h | h); exacts [hbc h.symm, hac h.symm, hab h.symm]),
      if_neg (by rintro (h | h | h); exacts [hab h, hac h, hbc h])]
    obtain ⟨p, q, r, hs⟩ := sortPts_shape a b c
    rw [sortPts_perm (((List.Perm.swap b c [a]).trans
      (List.Perm.cons b (List.Perm.swap a c []))).trans
      (List.Perm.swap a b [c])), hs]
    show parity3 c b a * symbolicBase p q r =
      -(parity3 a b c * symbolicBase p q r)
    rw [parity3_swap₃ (fun h => hab (ptKey_inj h)) (fun h => hac (ptKey_inj h))
      (fun h => hbc (ptKey_inj h))]
    ring

/-- **C3.** The orientation predicate of the cascade is antisymmetric:
swapping any two of the three arguments negates the returned sign, on
every point triple, including exactly degenerate (collinear) triples
resolved by the symbolic-perturbation stage. -/
theorem c3_sign_antisymmetry (a b c : Pt) :
    signCascade b a c = -signCascade a b c ∧
      signCascade a c b = -signCascade a b c ∧
      signCascade c b a = -signCascade a b c := by
  obtain ⟨h1, h2, h3⟩ := det3_swaps a b c
  refine ⟨?_, ?_, ?_⟩
  · simp only [signCascade]
    rw [h1]
    rcases lt_trichotomy (det3 a b c) 0 with h | h | h
    · rw [if_pos (show -det3 a b c > 0 by linarith),
        if_neg (show ¬ det3 a b c > 0 by linarith), if_pos h]
      norm_num
    · rw [h]
      norm_num
      exact sps_swap₁ a b c
    · rw [if_neg (show ¬ -det3 a b c > 0 by linarith),
        if_pos (show -det3 a b c < 0 by linarith), if_pos h]
  · simp only [signCascade]
    rw [h2]
    rcases lt_trichotomy (det3 a b c) 0 with h | h | h
    · rw [if_pos (show -det3 a b c > 0 by linarith),
        if_neg (show ¬ det3 a b c > 0 by linarith), if_pos h]
      norm_num
    · rw [h]
      norm_num
      exact sps_swap₂ a b c
    · rw [if_neg (show ¬ -det3 a b c > 0 by linarith),
        if_pos (show -det3 a b c < 0 by linarith), if_pos h]
  · simp only [signCascade]
    rw [h3]
    rcases lt_trichotomy (det3 a b c) 0 with h | h | h
    · rw [if_pos (show -det3 a b c > 0 by linarith),
        if_neg (show ¬ det3 a b c > 0 by linarith), if_pos h]
      norm_num
    · rw [h]
      norm_num
      exact sps_swap₃ a b c
    · rw [if_neg (show ¬ -det3 a b c > 0 by linarith),
        if_pos (show -det3 a b c < 0 by linarith), if_pos h]
